import Mathlib

/-!
Verification of the separate-chaining hash table in `Project2/hashtable.hpp`.

The C++ class `HashTable<Key, Value, Hash, KeyEqual>` is embedded shallowly:
* `std::vector<std::forward_list<HashNode>> buckets` becomes `List (List (K × V))`;
* the cached cursor `firstBucketIt` becomes the index offset `firstBucketIt : Nat`
  (`buckets.size()` plays the role of `buckets.end()`);
* `size_t tableSize` becomes `Nat`; `double maxLoadFactor` becomes `ℚ`;
* member functions that can throw return `Except Exc _`;
* the hash function object is a parameter `hashF : K → Nat`, and `KeyEqual`
  is decidable equality on `K` (the defaults `std::hash` / `std::equal_to`).

Non-const member functions are modelled state-passing: they return their
result together with the table object as it is when the call returns.
-/

set_option autoImplicit false
set_option linter.unusedSectionVars false

/-- The C++ exception classes thrown by the table or its library calls.
`rangeError` is `std::range_error`, `invalidArgument` is `std::invalid_argument`,
`outOfRange` is `std::out_of_range` (thrown by `std::vector::at`). -/
inductive ExcKind where
  | rangeError
  | invalidArgument
  | outOfRange
  deriving DecidableEq, Repr

/-- A thrown C++ exception: its dynamic type together with its message. -/
structure Exc where
  kind : ExcKind
  msg : String
  deriving DecidableEq, Repr

namespace HashPrime

/-- Modelled from the spec: `hash_prime.hpp` is not part of the sources under
verification; the spec describes it as "an externally supplied ascending
sequence of admissible bucket sizes" (precomputed primes) queried with
`lowerBound` semantics, and the source comments pin `g_a_sizes[0] = 5`
("default number of buckets is 5").  We model it as a fixed ascending list
of primes starting at 5, each roughly doubling. -/
def g_a_sizes : List Nat := [5, 11, 23, 47, 97, 199, 409, 823, 1741, 3469, 6949, 14033]

/-- Source `std::lower_bound(first, last, bound)` on a sorted range: the first
element that is not less than `bound`, or `none` when the iterator returned
equals `last`. -/
def lowerBound (bound : Nat) : List Nat → Option Nat
  | [] => none
  | x :: rest => if bound ≤ x then some x else lowerBound bound rest

end HashPrime

/-- The iterator of the C++ table, without its back pointer to the table.
`bucketIdx` is the offset of `bucketIt` from `buckets.begin()` (so
`bucketIdx = buckets.size()` encodes `buckets.end()`); `pos` is the index of
the element *referred to* by the iterator, i.e. `listItBefore` points just
before element `pos` of the chain (`pos = 0` is `before_begin()`). -/
structure Iterator where
  bucketIdx : Nat
  pos : Nat
  endFlag : Bool
  deriving DecidableEq, Repr

/-- The table object: buckets of singly linked chains, the cached first
non-empty bucket cursor, the element count and the maximum load factor. -/
structure HashTable (K V : Type) where
  buckets : List (List (K × V))
  firstBucketIt : Nat
  tableSize : Nat
  maxLoadFactor : ℚ
  deriving DecidableEq, Repr

namespace HashTable

variable {K V : Type} [DecidableEq K] [Inhabited V] (hashF : K → Nat)

/-- Source `size()`. -/
def size (s : HashTable K V) : Nat := s.tableSize

/-- Source `bucketSize()` (the number of buckets). -/
def bucketSize (s : HashTable K V) : Nat := s.buckets.length

/-- Source `loadFactor()`: `(double) tableSize / (double) buckets.size()`. -/
def loadFactor (s : HashTable K V) : ℚ := (s.tableSize : ℚ) / (s.buckets.length : ℚ)

/-- Source `getMaxLoadFactor()`. -/
def getMaxLoadFactor (s : HashTable K V) : ℚ := s.maxLoadFactor

/-- Source `hashKey(key)`: `hash(key) % buckets.size()`. -/
def hashKey (s : HashTable K V) (k : K) : Nat := hashF k % s.buckets.length

/-- The test `(double) tableSize / (double) buckets.size() >= maxLoadFactor`
opening `findMinimumBucketSize`.  With no buckets the double quotient is
`NaN` (table also empty: compares false) or `+inf` (otherwise: compares
true); with buckets it is the exact rational quotient. -/
def loadGEmax (s : HashTable K V) : Bool :=
  if s.buckets.length = 0 then decide (0 < s.tableSize)
  else decide (s.maxLoadFactor ≤ (s.tableSize : ℚ) / (s.buckets.length : ℚ))

/-- Source `findMinimumBucketSize(bucketSize)` (lines 170-183): if the current load
reaches the maximum, binary-search `g_a_sizes` for the first size that is at
least `ceil(tableSize / maxLoadFactor)` and throw `std::range_error` when the
sequence is exhausted; otherwise return the argument unchanged. -/
def findMinimumBucketSize (s : HashTable K V) (bucketSize : Nat) : Except Exc Nat :=
  if loadGEmax s then
    match HashPrime.lowerBound (Nat.ceil ((s.tableSize : ℚ) / s.maxLoadFactor)) HashPrime.g_a_sizes with
    | some v => .ok v
    | none => .error ⟨.rangeError, "Out of range."⟩
  else .ok bucketSize

/-- Source `DEFAULT_BUCKET_SIZE = HashPrime::g_a_sizes[0]`. -/
def DEFAULT_BUCKET_SIZE : Nat := HashPrime.g_a_sizes.headD 0

/-- The default constructor `HashTable()`: `DEFAULT_BUCKET_SIZE` empty
buckets, `firstBucketIt = buckets.end()`, default load factor `0.5`. -/
def defaultTable : HashTable K V :=
  { buckets := List.replicate DEFAULT_BUCKET_SIZE []
    firstBucketIt := DEFAULT_BUCKET_SIZE
    tableSize := 0
    maxLoadFactor := 1/2 }

/-- The constructor `HashTable(size_t bucketSize)`: it calls
`findMinimumBucketSize` while `buckets` is still empty, then resizes to the
returned count and sets `firstBucketIt = buckets.end()`. -/
def ofBucketSize (b : Nat) : Except Exc (HashTable K V) :=
  let s0 : HashTable K V :=
    { buckets := [], firstBucketIt := 0, tableSize := 0, maxLoadFactor := 1/2 }
  match findMinimumBucketSize s0 b with
  | .error e => .error e
  | .ok bs =>
      .ok { buckets := List.replicate bs []
            firstBucketIt := bs
            tableSize := 0
            maxLoadFactor := 1/2 }

/-- The copy constructor / copy assignment: fields are copied and
`firstBucketIt` is rebuilt as `begin() + (that.firstBucketIt - that.begin())`,
i.e. the same offset, into the copied storage. -/
def copy (s : HashTable K V) : HashTable K V :=
  { buckets := s.buckets
    firstBucketIt := s.firstBucketIt
    tableSize := s.tableSize
    maxLoadFactor := s.maxLoadFactor }

/-- Source `end()`: `bucketIt = buckets.end()`, `listItBefore =
buckets.begin()->before_begin()`, `endFlag = true`. -/
def endIter (s : HashTable K V) : Iterator :=
  { bucketIdx := s.buckets.length, pos := 0, endFlag := true }

/-- Source `begin()`: jump to the cached cursor when it is not `buckets.end()`,
else return `end()`. -/
def beginIter (s : HashTable K V) : Iterator :=
  if s.firstBucketIt ≠ s.buckets.length then
    { bucketIdx := s.firstBucketIt, pos := 0, endFlag := false }
  else endIter s

/-- Source `Iterator::operator==`. -/
def iterEq (a b : Iterator) : Bool :=
  if a.endFlag && b.endFlag then true
  else if a.bucketIdx ≠ b.bucketIdx then false
  else decide (a.pos = b.pos)

/-- Source `Iterator::operator!=`. -/
def iterNe (a b : Iterator) : Bool :=
  if a.endFlag && b.endFlag then false
  else if a.bucketIdx ≠ b.bucketIdx then true
  else decide (a.pos ≠ b.pos)

/-- The entry an iterator refers to (`Iterator::operator*`), when it exists. -/
def derefEntry (s : HashTable K V) (it : Iterator) : Option (K × V) :=
  (s.buckets.getD it.bucketIdx [])[it.pos]?

/-- How many leading chains of the list are empty (all of them when every
chain is empty). -/
def firstNonEmptyOffset : List (List (K × V)) → Nat
  | [] => 0
  | c :: rest => if c.isEmpty then firstNonEmptyOffset rest + 1 else 0

/-- The index of the first non-empty bucket at position `i` or later
(`bs.length` when there is none): the forward scans of `Iterator::increment`
and of `erase`. -/
def firstNonEmptyFrom (bs : List (List (K × V))) (i : Nat) : Nat :=
  i + firstNonEmptyOffset (bs.drop i)

/-- Source `Iterator::increment` (lines 48-70): advance within the current chain if
the next element exists, otherwise scan forward for the first non-empty
bucket and position before its first element, otherwise become an end
iterator. -/
def increment (s : HashTable K V) (it : Iterator) : Iterator :=
  if it.bucketIdx = s.buckets.length then { it with endFlag := true }
  else
    let chain := s.buckets.getD it.bucketIdx []
    if it.pos < chain.length ∧ it.pos + 1 < chain.length then
      { it with pos := it.pos + 1 }
    else
      let j := firstNonEmptyFrom s.buckets (it.bucketIdx + 1)
      if j < s.buckets.length then { bucketIdx := j, pos := 0, endFlag := it.endFlag }
      else { bucketIdx := s.buckets.length, pos := it.pos, endFlag := true }

/-- The scan of a chain performed by `find`: the index of the first entry
whose key compares equal (via `KeyEqual`) to `k`. -/
def chainFindIdx (k : K) : List (K × V) → Option Nat
  | [] => none
  | e :: rest => if e.1 = k then some 0 else (chainFindIdx k rest).map (· + 1)

/-- Source `find(key)` (lines 253-272): select the bucket by `hashKey`, scan its
chain, and return either a found iterator (bucket offset plus before
position) or `Iterator(this, buckets.end(), buckets.begin()->before_begin())`.
`buckets.at(t)` throws `std::out_of_range` when `t` is out of bounds.  The
member is non-const, so the table after the call is returned as well. -/
def findS (s : HashTable K V) (k : K) : Except Exc (Iterator × HashTable K V) :=
  match s.buckets[hashF k % s.buckets.length]? with
  | none => .error ⟨.outOfRange, "vector::at"⟩
  | some chain =>
    match chainFindIdx k chain with
    | some i =>
      .ok ({ bucketIdx := hashF k % s.buckets.length, pos := i,
             endFlag := decide (hashF k % s.buckets.length = s.buckets.length) }, s)
    | none => .ok ({ bucketIdx := s.buckets.length, pos := 0, endFlag := true }, s)

/-- Source `contains(key)`: `find(key) != end()`. -/
def containsS (s : HashTable K V) (k : K) : Except Exc (Bool × HashTable K V) :=
  match findS hashF s k with
  | .error e => .error e
  | .ok (it, s1) => .ok (iterNe it (endIter s1), s1)

/-- Overwrite the value stored at chain position `i` of bucket `t`
(`it1->second = value` on the found path of `insert`). -/
def updateValueAt (bs : List (List (K × V))) (t i : Nat) (v : V) : List (List (K × V)) :=
  match bs[t]? with
  | none => bs
  | some chain =>
    match chain[i]? with
    | none => bs
    | some e => bs.set t (chain.set i (e.1, v))

/-- Remove the entry at chain position `i` of bucket `t`
(`it.bucketIt->erase_after(it.listItBefore)`). -/
def eraseEntryAt (bs : List (List (K × V))) (t i : Nat) : List (List (K × V)) :=
  match bs[t]? with
  | none => bs
  | some chain => bs.set t (chain.eraseIdx i)

/-- Source `erase(const Iterator &)` (lines 348-368): do nothing on an end
iterator; otherwise unlink the referent, decrement the size, keep the cursor
when it is before the erased bucket and otherwise rescan forward from the
erased bucket; finally return the input iterator unchanged. -/
def eraseIt (s : HashTable K V) (it : Iterator) : Iterator × HashTable K V :=
  if it.endFlag then (it, s)
  else
    let buckets1 := eraseEntryAt s.buckets it.bucketIdx it.pos
    let n1 := s.tableSize - 1
    if s.firstBucketIt < it.bucketIdx then
      (it, { s with buckets := buckets1, tableSize := n1 })
    else
      (it, { s with buckets := buckets1, tableSize := n1,
                    firstBucketIt := firstNonEmptyFrom buckets1 it.bucketIdx })

/-- Source `erase(const Key &)` (lines 332-338): `find`, then positional erase when
found. -/
def eraseKey (s : HashTable K V) (k : K) : Except Exc (Bool × HashTable K V) :=
  match findS hashF s k with
  | .error e => .error e
  | .ok (it, s1) =>
    if it.endFlag then .ok (false, s1)
    else .ok (true, (eraseIt s1 it).2)

/-- The collection loop of `rehash`: repeatedly dereference and increment
from a given iterator while `endFlag` is not set.  The fuel bounds the
number of iterations; each iteration emits one entry, so any fuel at least
the total number of stored entries is enough. -/
def traverseAux (s : HashTable K V) : Iterator → Nat → List (K × V)
  | _, 0 => []
  | it, fuel + 1 =>
    if it.endFlag then []
    else
      match derefEntry s it with
      | none => []
      | some e => e :: traverseAux s (increment s it) fuel

/-- The entries visited by `for (Iterator it = begin(); !it.endFlag; ++it)`. -/
def traversalList (s : HashTable K V) : List (K × V) :=
  traverseAux s (beginIter s) ((s.buckets.map List.length).sum + 1)

/-- The state built by the not-found arm of `insert`: `++tableSize`, the new
entry pushed at the front of bucket `hashKey(key)` (`chain` is that bucket),
and the cursor pulled forward when the target bucket precedes it. -/
def insertPrepend (s : HashTable K V) (k : K) (v : V) (chain : List (K × V)) : HashTable K V :=
  { s with buckets := s.buckets.set (hashF k % s.buckets.length) ((k, v) :: chain),
           tableSize := s.tableSize + 1,
           firstBucketIt := if hashF k % s.buckets.length < s.firstBucketIt
                            then hashF k % s.buckets.length else s.firstBucketIt }

mutual

/-- Source `insert(const Iterator &, const Key &, const Value &)` (lines 286-306):
on an end iterator, bump the size, prepend at the hashed bucket, pull the
cursor forward when needed, and rehash to twice the bucket count when the
load factor now exceeds the maximum; otherwise overwrite the value of the found entry in place.  The fuel bounds the `insert`/`rehash` recursion depth. -/
def insertItFuel (fuel : Nat) (s : HashTable K V) (it : Iterator) (k : K) (v : V) :
    Except Exc (Bool × HashTable K V) :=
  if it.endFlag then
    match s.buckets[hashF k % s.buckets.length]? with
    | none => .error ⟨.outOfRange, "vector::at"⟩
    | some chain =>
      if s.maxLoadFactor < (((s.tableSize + 1 : Nat)) : ℚ) / (s.buckets.length : ℚ) then
        match rehashFuel fuel (insertPrepend hashF s k v chain) (s.buckets.length * 2) with
        | .error e => .error e
        | .ok s2 => .ok (true, s2)
      else .ok (true, insertPrepend hashF s k v chain)
  else .ok (false, { s with buckets := updateValueAt s.buckets it.bucketIdx it.pos v })
termination_by (fuel, 1, 0)

/-- Source `insert(const Key &, const Value &)` (lines 318-322): `find` then the
positional insert. -/
def insertFuel (fuel : Nat) (s : HashTable K V) (k : K) (v : V) :
    Except Exc (Bool × HashTable K V) :=
  match findS hashF s k with
  | .error e => .error e
  | .ok (it, s1) => insertItFuel fuel s1 it k v
termination_by (fuel, 2, 0)

/-- The reinsertion loop of `rehash`: `for (auto &[key, value] : vec)
insert(key, value);`. -/
def reinsertAllFuel (fuel : Nat) (s : HashTable K V) (l : List (K × V)) :
    Except Exc (HashTable K V) :=
  match l with
  | [] => .ok s
  | (k, v) :: rest =>
    match insertFuel fuel s k v with
    | .error e => .error e
    | .ok (_, s2) => reinsertAllFuel fuel s2 rest
termination_by (fuel, 3, l.length)

/-- Source `rehash(size_t)` (lines 399-421): compute the target count via
`findMinimumBucketSize`; stop when it equals the current count; otherwise
drain all entries by iteration, reset to freshly sized empty buckets with
the cursor at `buckets.end()`, and reinsert every drained entry. -/
def rehashFuel (fuel : Nat) (s : HashTable K V) (b : Nat) : Except Exc (HashTable K V) :=
  match fuel with
  | 0 => .error ⟨.rangeError, "recursion limit"⟩
  | f + 1 =>
    match findMinimumBucketSize s b with
    | .error e => .error e
    | .ok bs =>
      if bs = s.buckets.length then .ok s
      else
        let vec := traversalList s
        let s0 : HashTable K V :=
          { buckets := List.replicate bs []
            firstBucketIt := bs
            tableSize := 0
            maxLoadFactor := s.maxLoadFactor }
        reinsertAllFuel f s0 vec
termination_by (fuel, 0, 0)

end

/-- Recursion fuel for the public operations.  The source recursion
`insert → rehash → insert → …` never nests more than three levels deep
(a triggered rehash always reaches a bucket count large enough that its own
reinsertions do not trigger again), so any generous constant is faithful. -/
def FUEL : Nat := 100

/-- The public `insert(key, value)`. -/
def insert (s : HashTable K V) (k : K) (v : V) : Except Exc (Bool × HashTable K V) :=
  insertFuel hashF FUEL s k v

/-- The public `insert(it, key, value)`. -/
def insertIt (s : HashTable K V) (it : Iterator) (k : K) (v : V) :
    Except Exc (Bool × HashTable K V) :=
  insertItFuel hashF FUEL s it k v

/-- The public `rehash(bucketSize)`. -/
def rehash (s : HashTable K V) (b : Nat) : Except Exc (HashTable K V) :=
  rehashFuel hashF FUEL s b

/-- Source `operator[]` (lines 379-388): `find`; insert a default-constructed value
and re-`find` when absent; return the referenced value. -/
def opIndex (s : HashTable K V) (k : K) : Except Exc (V × HashTable K V) :=
  match findS hashF s k with
  | .error e => .error e
  | .ok (it, s1) =>
    if it.endFlag then
      match insert hashF s1 k default with
      | .error e => .error e
      | .ok (_, s2) =>
        match findS hashF s2 k with
        | .error e => .error e
        | .ok (it2, s3) =>
          match derefEntry s3 it2 with
          | none => .error ⟨.outOfRange, "dereference past the end"⟩
          | some e => .ok (e.2, s3)
    else
      match derefEntry s1 it with
      | none => .error ⟨.outOfRange, "dereference past the end"⟩
      | some e => .ok (e.2, s1)

/-- Source `setMaxLoadFactor(double)` (lines 448-454): throw `std::range_error` for
a factor at most `1e-9`, otherwise store it and `rehash(buckets.size())`. -/
def setMaxLoadFactor (s : HashTable K V) (f : ℚ) : Except Exc (HashTable K V) :=
  if f ≤ 1 / 1000000000 then .error ⟨.rangeError, "invalid load factor!"⟩
  else rehash hashF { s with maxLoadFactor := f } s.buckets.length

/-- The table states reachable through the public interface, each mutating
call completing without throwing, iterator arguments obtained from `find` on
the current table (the documented precondition). -/
inductive Reachable : HashTable K V → Prop where
  | default_ctor : Reachable defaultTable
  | sized_ctor (b : Nat) (s : HashTable K V) :
      ofBucketSize b = .ok s → Reachable s
  | insert_step (s : HashTable K V) (k : K) (v : V) (r : Bool) (s2 : HashTable K V) :
      Reachable s → insert hashF s k v = .ok (r, s2) → Reachable s2
  | insertIt_step (s s1 s2 : HashTable K V) (k : K) (v : V) (it : Iterator) (r : Bool) :
      Reachable s → findS hashF s k = .ok (it, s1) →
      insertIt hashF s1 it k v = .ok (r, s2) → Reachable s2
  | eraseKey_step (s s2 : HashTable K V) (k : K) (r : Bool) :
      Reachable s → eraseKey hashF s k = .ok (r, s2) → Reachable s2
  | eraseIt_step (s s1 : HashTable K V) (k : K) (it : Iterator) :
      Reachable s → findS hashF s k = .ok (it, s1) → Reachable (eraseIt s1 it).2
  | rehash_step (s s2 : HashTable K V) (b : Nat) :
      Reachable s → rehash hashF s b = .ok s2 → Reachable s2
  | opIndex_step (s s2 : HashTable K V) (k : K) (v : V) :
      Reachable s → opIndex hashF s k = .ok (v, s2) → Reachable s2
  | setMaxLoadFactor_step (s s2 : HashTable K V) (f : ℚ) :
      Reachable s → setMaxLoadFactor hashF s f = .ok s2 → Reachable s2
  | copy_step (s : HashTable K V) : Reachable s → Reachable (copy s)

end HashTable

namespace HashTable

variable {K V : Type} [DecidableEq K] [Inhabited V] (hashF : K → Nat)

/-! ### Generic list facts used by the invariant proofs -/

theorem set_self_of_getElem? {α : Type _} :
    ∀ {l : List α} {i : Nat} {a : α}, l[i]? = some a → l.set i a = l := by
  intro l
  induction l with
  | nil => intro i a h; simp at h
  | cons x xs ih =>
    intro i a h
    cases i with
    | zero => simp at h; simp [h]
    | succ j => simp at h; simp [ih h]

theorem length_le_sum_map {bs : List (List (K × V))} :
    ∀ {t : Nat} {chain : List (K × V)}, bs[t]? = some chain →
      chain.length ≤ (bs.map List.length).sum := by
  induction bs with
  | nil => intro t chain h; simp at h
  | cons c rest ih =>
    intro t chain h
    cases t with
    | zero => simp at h; simp [h]
    | succ j =>
      simp only [List.getElem?_cons_succ] at h
      have := ih h
      simp; omega

theorem sum_map_length_set {bs : List (List (K × V))} :
    ∀ {t : Nat} {chain : List (K × V)}, bs[t]? = some chain → ∀ c : List (K × V),
      ((bs.set t c).map List.length).sum + chain.length
        = (bs.map List.length).sum + c.length := by
  induction bs with
  | nil => intro t chain h; simp at h
  | cons x rest ih =>
    intro t chain h c
    cases t with
    | zero => simp at h; subst h; simp; omega
    | succ j =>
      simp only [List.getElem?_cons_succ] at h
      have := ih h c
      simp only [List.set_cons_succ, List.map_cons, List.sum_cons]
      omega

/-! ### The chain scan of `find` -/

theorem chainFindIdx_spec {k : K} :
    ∀ {l : List (K × V)} {i : Nat}, chainFindIdx k l = some i →
      ∃ e : K × V, l[i]? = some e ∧ e.1 = k ∧
        ∀ j, j < i → ∀ e2 : K × V, l[j]? = some e2 → e2.1 ≠ k := by
  intro l
  induction l with
  | nil => intro i h; simp [chainFindIdx] at h
  | cons x xs ih =>
    intro i h
    by_cases hx : x.1 = k
    · simp [chainFindIdx, hx] at h
      subst h
      exact ⟨x, by simp, hx, by omega⟩
    · simp [chainFindIdx, hx] at h
      obtain ⟨i0, hi0, rfl⟩ := h
      obtain ⟨e, he, hek, hpre⟩ := ih hi0
      refine ⟨e, by simpa using he, hek, ?_⟩
      intro j hj e2 he2
      cases j with
      | zero => simp at he2; subst he2; exact hx
      | succ j0 =>
        simp only [List.getElem?_cons_succ] at he2
        exact hpre j0 (by omega) e2 he2

theorem chainFindIdx_none {k : K} :
    ∀ {l : List (K × V)}, chainFindIdx k l = none → ∀ e ∈ l, e.1 ≠ k := by
  intro l
  induction l with
  | nil => intro _ e he; simp at he
  | cons x xs ih =>
    intro h e he
    by_cases hx : x.1 = k
    · simp [chainFindIdx, hx] at h
    · simp [chainFindIdx, hx] at h
      rcases List.mem_cons.mp he with rfl | he2
      · exact hx
      · exact ih h e he2

theorem chainFindIdx_lt_length {k : K} {l : List (K × V)} {i : Nat}
    (h : chainFindIdx k l = some i) : i < l.length := by
  obtain ⟨e, he, -, -⟩ := chainFindIdx_spec h
  exact (List.getElem?_eq_some.mp he).1

/-! ### The first non-empty bucket scan -/

theorem firstNonEmptyOffset_cons_nil {rest : List (List (K × V))} :
    firstNonEmptyOffset (([] : List (K × V)) :: rest) = firstNonEmptyOffset rest + 1 := by
  simp [firstNonEmptyOffset]

theorem firstNonEmptyOffset_cons_ne {c : List (K × V)} {rest : List (List (K × V))}
    (h : c ≠ []) : firstNonEmptyOffset (c :: rest) = 0 := by
  have : ¬ c.isEmpty := by simpa [List.isEmpty_iff] using h
  simp [firstNonEmptyOffset, this]

theorem firstNonEmptyOffset_le (l : List (List (K × V))) :
    firstNonEmptyOffset l ≤ l.length := by
  induction l with
  | nil => simp [firstNonEmptyOffset]
  | cons c rest ih =>
    by_cases hc : c = []
    · subst hc; rw [firstNonEmptyOffset_cons_nil]; simp; omega
    · rw [firstNonEmptyOffset_cons_ne hc]; omega

theorem firstNonEmptyOffset_prefix {l : List (List (K × V))} :
    ∀ {m : Nat}, m < firstNonEmptyOffset l → l[m]? = some [] := by
  induction l with
  | nil => intro m h; simp [firstNonEmptyOffset] at h
  | cons c rest ih =>
    intro m h
    by_cases hc : c = []
    · subst hc
      rw [firstNonEmptyOffset_cons_nil] at h
      cases m with
      | zero => simp
      | succ j => simpa using ih (by omega)
    · rw [firstNonEmptyOffset_cons_ne hc] at h; omega

theorem firstNonEmptyOffset_get {l : List (List (K × V))}
    (h : firstNonEmptyOffset l < l.length) :
    ∃ c : List (K × V), l[firstNonEmptyOffset l]? = some c ∧ c ≠ [] := by
  induction l with
  | nil => simp at h
  | cons c rest ih =>
    by_cases hc : c = []
    · subst hc
      rw [firstNonEmptyOffset_cons_nil] at h ⊢
      have hlt : firstNonEmptyOffset rest < rest.length := by
        simp at h; omega
      obtain ⟨c0, hc0, hc0ne⟩ := ih hlt
      exact ⟨c0, by simpa using hc0, hc0ne⟩
    · rw [firstNonEmptyOffset_cons_ne hc]
      exact ⟨c, by simp, hc⟩

theorem firstNonEmptyOffset_unique {l : List (List (K × V))} :
    ∀ {j : Nat}, j ≤ l.length → (∀ m, m < j → l[m]? = some []) →
      (j = l.length ∨ ∃ c : List (K × V), l[j]? = some c ∧ c ≠ []) →
      firstNonEmptyOffset l = j := by
  induction l with
  | nil =>
    intro j hj _ _
    simp at hj
    simp [firstNonEmptyOffset, hj]
  | cons c rest ih =>
    intro j hj hemp hend
    cases j with
    | zero =>
      rcases hend with h | ⟨c0, hc0, hc0ne⟩
      · simp at h
      · simp at hc0
        subst hc0
        exact firstNonEmptyOffset_cons_ne hc0ne
    | succ j0 =>
      have h0 : c = [] := by
        have := hemp 0 (by omega)
        simpa using this
      subst h0
      rw [firstNonEmptyOffset_cons_nil]
      have : firstNonEmptyOffset rest = j0 := by
        refine ih (by simpa using hj) ?_ ?_
        · intro m hm
          have := hemp (m + 1) (by omega)
          simpa using this
        · rcases hend with h | ⟨c0, hc0, hc0ne⟩
          · left; simpa using h
          · right; exact ⟨c0, by simpa using hc0, hc0ne⟩
      omega

theorem firstNonEmptyOffset_lt_of_mem {l : List (List (K × V))} {c : List (K × V)}
    (hmem : c ∈ l) (hne : c ≠ []) : firstNonEmptyOffset l < l.length := by
  induction l with
  | nil => simp at hmem
  | cons x rest ih =>
    rcases List.mem_cons.mp hmem with rfl | hmem2
    · rw [firstNonEmptyOffset_cons_ne hne]; simp
    · by_cases hx : x = []
      · subst hx
        rw [firstNonEmptyOffset_cons_nil]
        have := ih hmem2
        simp; omega
      · rw [firstNonEmptyOffset_cons_ne hx]; simp

theorem firstNonEmptyOffset_congr :
    ∀ {l1 l2 : List (List (K × V))}, l1.map List.length = l2.map List.length →
      firstNonEmptyOffset l1 = firstNonEmptyOffset l2 := by
  intro l1
  induction l1 with
  | nil => intro l2 h; cases l2 <;> simp_all
  | cons c rest ih =>
    intro l2 h
    cases l2 with
    | nil => simp at h
    | cons c2 rest2 =>
      simp only [List.map_cons, List.cons.injEq] at h
      by_cases hc : c = []
      · subst hc
        have hc2 : c2 = [] := by
          have := h.1
          simpa [eq_comm, List.length_eq_zero] using this.symm
        subst hc2
        rw [firstNonEmptyOffset_cons_nil, firstNonEmptyOffset_cons_nil, ih h.2]
      · have hc2 : c2 ≠ [] := by
          intro hnil
          subst hnil
          exact hc (by simpa [List.length_eq_zero] using h.1)
        rw [firstNonEmptyOffset_cons_ne hc, firstNonEmptyOffset_cons_ne hc2]

/-! ### Lifting the offset facts to `firstNonEmptyFrom` -/

theorem firstNonEmptyFrom_ge (bs : List (List (K × V))) (i : Nat) :
    i ≤ firstNonEmptyFrom bs i := by
  simp [firstNonEmptyFrom]

theorem firstNonEmptyFrom_le {bs : List (List (K × V))} {i : Nat} (h : i ≤ bs.length) :
    firstNonEmptyFrom bs i ≤ bs.length := by
  have h1 := firstNonEmptyOffset_le (bs.drop i)
  simp only [List.length_drop] at h1
  simp only [firstNonEmptyFrom]
  omega

theorem firstNonEmptyFrom_prefix {bs : List (List (K × V))} {i m : Nat}
    (h1 : i ≤ m) (h2 : m < firstNonEmptyFrom bs i) : bs[m]? = some [] := by
  have h3 : m - i < firstNonEmptyOffset (bs.drop i) := by
    simp only [firstNonEmptyFrom] at h2; omega
  have h4 := firstNonEmptyOffset_prefix h3
  rw [List.getElem?_drop] at h4
  rwa [show i + (m - i) = m from by omega] at h4

theorem firstNonEmptyFrom_get {bs : List (List (K × V))} {i : Nat}
    (h : firstNonEmptyFrom bs i < bs.length) :
    ∃ c : List (K × V), bs[firstNonEmptyFrom bs i]? = some c ∧ c ≠ [] := by
  have hoff : firstNonEmptyOffset (bs.drop i) < (bs.drop i).length := by
    have hge := firstNonEmptyFrom_ge (K := K) (V := V) bs i
    simp only [firstNonEmptyFrom] at h ⊢
    simp only [List.length_drop]
    omega
  obtain ⟨c, hc, hcne⟩ := firstNonEmptyOffset_get hoff
  rw [List.getElem?_drop] at hc
  exact ⟨c, by simpa only [firstNonEmptyFrom] using hc, hcne⟩

theorem firstNonEmptyFrom_unique {bs : List (List (K × V))} {i j : Nat}
    (hij : i ≤ j) (hj : j ≤ bs.length)
    (hemp : ∀ m, i ≤ m → m < j → bs[m]? = some [])
    (hend : j = bs.length ∨ ∃ c : List (K × V), bs[j]? = some c ∧ c ≠ []) :
    firstNonEmptyFrom bs i = j := by
  have h0 : firstNonEmptyOffset (bs.drop i) = j - i := by
    refine firstNonEmptyOffset_unique ?_ ?_ ?_
    · simp only [List.length_drop]; omega
    · intro m hm
      rw [List.getElem?_drop]
      exact hemp (i + m) (by omega) (by omega)
    · rcases hend with h | ⟨c, hc, hcne⟩
      · left; simp only [List.length_drop]; omega
      · right
        refine ⟨c, ?_, hcne⟩
        rw [List.getElem?_drop, show i + (j - i) = j from by omega]
        exact hc
  simp only [firstNonEmptyFrom, h0]
  omega

theorem firstNonEmptyFrom_skip {bs : List (List (K × V))} {i : Nat}
    (hi : i ≤ bs.length) (h : ∀ m, m < i → bs[m]? = some []) :
    firstNonEmptyFrom bs 0 = firstNonEmptyFrom bs i := by
  refine firstNonEmptyFrom_unique (by omega) (firstNonEmptyFrom_le hi) ?_ ?_
  · intro m _ hm
    by_cases hmi : m < i
    · exact h m hmi
    · exact firstNonEmptyFrom_prefix (by omega) hm
  · by_cases hlt : firstNonEmptyFrom bs i < bs.length
    · exact Or.inr (firstNonEmptyFrom_get hlt)
    · have hle2 : firstNonEmptyFrom bs i ≤ bs.length := firstNonEmptyFrom_le hi
      exact Or.inl (by omega)

/-- Dropping a run of empty chains changes neither the concatenation of the
remaining chains nor the total entry count. -/
theorem drop_flatten_of_empty :
    ∀ (n : Nat) (bs : List (List (K × V))) (i j : Nat), i + n = j → j ≤ bs.length →
      (∀ m, i ≤ m → m < j → bs[m]? = some []) →
      (bs.drop i).flatten = (bs.drop j).flatten ∧
      ((bs.drop i).map List.length).sum = ((bs.drop j).map List.length).sum := by
  intro n
  induction n with
  | zero =>
    intro bs i j hij _ _
    have : i = j := by omega
    subst this
    exact ⟨rfl, rfl⟩
  | succ n0 ih =>
    intro bs i j hij hj hemp
    have hi_lt : i < bs.length := by omega
    have hbi : bs[i]? = some [] := hemp i le_rfl (by omega)
    have hbi2 : bs[i] = ([] : List (K × V)) := by
      have := List.getElem?_eq_getElem hi_lt
      rw [this] at hbi
      exact Option.some.inj hbi
    have hdrop : bs.drop i = ([] : List (K × V)) :: bs.drop (i + 1) := by
      rw [List.drop_eq_getElem_cons hi_lt, hbi2]
    have hrec := ih bs (i + 1) j (by omega) hj
      (fun m hm1 hm2 => hemp m (by omega) hm2)
    constructor
    · rw [hdrop, List.flatten_cons, List.nil_append, hrec.1]
    · rw [hdrop, List.map_cons, List.sum_cons, hrec.2, List.length_nil, Nat.zero_add]

/-! ### Characterization of `find` -/

theorem findS_state {s s1 : HashTable K V} {k : K} {it : Iterator}
    (h : findS hashF s k = .ok (it, s1)) : s1 = s := by
  unfold findS at h
  split at h
  · simp at h
  · split at h
    · simp at h; exact h.2.symm
    · simp at h; exact h.2.symm

theorem findS_found {s s1 : HashTable K V} {k : K} {it : Iterator}
    (h : findS hashF s k = .ok (it, s1)) (hend : it.endFlag = false) :
    s1 = s ∧ it.bucketIdx = hashF k % s.buckets.length ∧
      it.bucketIdx < s.buckets.length ∧
      ∃ chain, s.buckets[it.bucketIdx]? = some chain ∧ chainFindIdx k chain = some it.pos := by
  unfold findS at h
  split at h
  · simp at h
  · rename_i chain h1
    split at h
    · rename_i i h2
      simp at h
      obtain ⟨hit, hs⟩ := h
      subst hs
      have hlt : hashF k % s.buckets.length < s.buckets.length := by
        rcases List.getElem?_eq_some.mp h1 with ⟨hm, -⟩
        exact hm
      refine ⟨rfl, ?_, ?_, chain, ?_, ?_⟩ <;> rw [← hit] <;> simp [hlt, h1, h2]
    · rename_i h2
      simp at h
      rw [← h.1] at hend
      simp at hend

theorem findS_notFound {s s1 : HashTable K V} {k : K} {it : Iterator}
    (h : findS hashF s k = .ok (it, s1)) (hend : it.endFlag = true) :
    s1 = s ∧ it = { bucketIdx := s.buckets.length, pos := 0, endFlag := true } ∧
      ∃ chain, s.buckets[hashF k % s.buckets.length]? = some chain ∧
        chainFindIdx k chain = none := by
  unfold findS at h
  split at h
  · simp at h
  · rename_i chain h1
    split at h
    · rename_i i h2
      simp at h
      have hlt : hashF k % s.buckets.length < s.buckets.length := by
        rcases List.getElem?_eq_some.mp h1 with ⟨hm, -⟩
        exact hm
      rw [← h.1] at hend
      simp at hend
      omega
    · rename_i h2
      simp at h
      exact ⟨h.2.symm, h.1.symm, chain, h1, h2⟩

theorem findS_isOk_of_pos {s : HashTable K V} (k : K) (hB : 0 < s.buckets.length) :
    ∃ it : Iterator, findS hashF s k = .ok (it, s) := by
  have hlt : hashF k % s.buckets.length < s.buckets.length := Nat.mod_lt _ hB
  rcases h2 : chainFindIdx k (s.buckets[hashF k % s.buckets.length]) with - | i
  · refine ⟨{ bucketIdx := s.buckets.length, pos := 0, endFlag := true }, ?_⟩
    unfold findS
    rw [List.getElem?_eq_getElem hlt]
    simp only [h2]
  · refine ⟨{ bucketIdx := hashF k % s.buckets.length, pos := i,
              endFlag := decide (hashF k % s.buckets.length = s.buckets.length) }, ?_⟩
    unfold findS
    rw [List.getElem?_eq_getElem hlt]
    simp only [h2]

/-! ### Facts about the sizing policy -/

theorem g_a_sizes_five_le : ∀ x ∈ HashPrime.g_a_sizes, 5 ≤ x := by decide

theorem lowerBound_spec {b : Nat} :
    ∀ {l : List Nat} {x : Nat}, HashPrime.lowerBound b l = some x → x ∈ l ∧ b ≤ x := by
  intro l
  induction l with
  | nil => intro x h; simp [HashPrime.lowerBound] at h
  | cons y rest ih =>
    intro x h
    by_cases hy : b ≤ y
    · simp [HashPrime.lowerBound, hy] at h
      subst h
      exact ⟨by simp, hy⟩
    · simp [HashPrime.lowerBound, hy] at h
      obtain ⟨h1, h2⟩ := ih h
      exact ⟨by simp [h1], h2⟩

/-- What an `.ok` result of `findMinimumBucketSize` satisfies: either the
load test failed and the argument came back unchanged, or a member of the
admissible sequence holding all current entries within the maximum load was
returned. -/
theorem findMinimumBucketSize_ok {s : HashTable K V} {b bs : Nat}
    (hf : 0 < s.maxLoadFactor)
    (h : findMinimumBucketSize s b = .ok bs) :
    (loadGEmax s = false ∧ bs = b) ∨
    (loadGEmax s = true ∧ bs ∈ HashPrime.g_a_sizes ∧
      (s.tableSize : ℚ) ≤ s.maxLoadFactor * (bs : ℚ)) := by
  unfold findMinimumBucketSize at h
  by_cases hl : loadGEmax s
  · rw [if_pos hl] at h
    right
    refine ⟨hl, ?_⟩
    rcases h2 : HashPrime.lowerBound (Nat.ceil ((s.tableSize : ℚ) / s.maxLoadFactor))
        HashPrime.g_a_sizes with - | v
    · rw [h2] at h; simp at h
    · rw [h2] at h
      simp at h
      obtain ⟨hmem, hle⟩ := lowerBound_spec h2
      rw [← h]
      refine ⟨hmem, ?_⟩
      have hdiv : (s.tableSize : ℚ) / s.maxLoadFactor ≤ (v : ℚ) := by
        rw [← Nat.ceil_le]
        exact hle
      rw [div_le_iff₀ hf] at hdiv
      calc (s.tableSize : ℚ) ≤ (v : ℚ) * s.maxLoadFactor := hdiv
        _ = s.maxLoadFactor * (v : ℚ) := mul_comm _ _
  · rw [if_neg hl] at h
    simp at h
    exact Or.inl ⟨by simpa using hl, h.symm⟩

/-- When the load test of `findMinimumBucketSize` fails, the current load is
below the maximum (a zero-bucket table is then also empty, with load `0` in
the rational model). -/
theorem loadFactor_lt_of_loadGEmax_false {s : HashTable K V}
    (hf : 0 < s.maxLoadFactor) (h : loadGEmax s = false) :
    loadFactor s ≤ s.maxLoadFactor := by
  unfold loadGEmax at h
  by_cases hB : s.buckets.length = 0
  · rw [if_pos hB] at h
    simp at h
    simp [loadFactor, hB, h]
    exact le_of_lt hf
  · rw [if_neg hB] at h
    simp at h
    exact le_of_lt h

/-! ### The invariant -/

/-- The structural invariant: the cached cursor equals the true first
non-empty bucket, and the size counter counts the stored entries. -/
def StructInv (s : HashTable K V) : Prop :=
  s.firstBucketIt = firstNonEmptyFrom s.buckets 0 ∧
  s.tableSize = (s.buckets.map List.length).sum

/-- The full invariant: structure plus a positive maximum load factor that
the current load respects. -/
def Inv (s : HashTable K V) : Prop :=
  StructInv s ∧ 0 < s.maxLoadFactor ∧ loadFactor s ≤ s.maxLoadFactor

theorem StructInv.firstBucketIt_le {s : HashTable K V} (h : StructInv s) :
    s.firstBucketIt ≤ s.buckets.length := by
  rw [h.1]
  exact firstNonEmptyFrom_le (by omega)

/-- Prepending a fresh entry at bucket `t` while bumping the size and
pulling the cursor to `min t firstBucketIt` preserves the structural
invariant: the not-found arm of `insert`. -/
theorem StructInv.prepend {s : HashTable K V} {t : Nat} {chain : List (K × V)}
    (hS : StructInv s) (ht : s.buckets[t]? = some chain) (k : K) (v : V) :
    StructInv { s with buckets := s.buckets.set t ((k, v) :: chain),
                       tableSize := s.tableSize + 1,
                       firstBucketIt := if t < s.firstBucketIt then t else s.firstBucketIt } := by
  obtain ⟨hfirst, hsize⟩ := hS
  have htlt : t < s.buckets.length := (List.getElem?_eq_some.mp ht).1
  constructor
  · show (if t < s.firstBucketIt then t else s.firstBucketIt) = _
    by_cases hcase : t < s.firstBucketIt
    · rw [if_pos hcase]
      symm
      refine firstNonEmptyFrom_unique (by omega) (by simp [List.length_set]; omega) ?_ ?_
      · intro m hm0 hmt
        rw [List.getElem?_set_ne (by omega)]
        refine firstNonEmptyFrom_prefix (i := 0) (by omega) ?_
        rw [← hfirst]
        omega
      · right
        refine ⟨(k, v) :: chain, ?_, by simp⟩
        rw [List.getElem?_set_self htlt]
    · rw [if_neg hcase]
      symm
      have hfle : s.firstBucketIt ≤ s.buckets.length := by
        rw [hfirst]; exact firstNonEmptyFrom_le (by omega)
      refine firstNonEmptyFrom_unique (by omega) (by simp [List.length_set]; omega) ?_ ?_
      · intro m hm0 hmf
        rw [List.getElem?_set_ne (by omega)]
        refine firstNonEmptyFrom_prefix (i := 0) (by omega) ?_
        rw [← hfirst]
        omega
      · right
        by_cases hts : t = s.firstBucketIt
        · refine ⟨(k, v) :: chain, ?_, by simp⟩
          rw [← hts, List.getElem?_set_self htlt]
        · have hflt : s.firstBucketIt < s.buckets.length := by omega
          have hflt2 : firstNonEmptyFrom s.buckets 0 < s.buckets.length := by
            rw [← hfirst]; exact hflt
          obtain ⟨c, hc, hcne⟩ := firstNonEmptyFrom_get hflt2
          rw [← hfirst] at hc
          refine ⟨c, ?_, hcne⟩
          rw [List.getElem?_set_ne (by omega)]
          exact hc
  · show s.tableSize + 1 = ((s.buckets.set t ((k, v) :: chain)).map List.length).sum
    have hsum := sum_map_length_set ht ((k, v) :: chain)
    simp only [List.length_cons] at hsum
    omega

theorem updateValueAt_map_length (bs : List (List (K × V))) (t i : Nat) (v : V) :
    (updateValueAt bs t i v).map List.length = bs.map List.length := by
  unfold updateValueAt
  split
  · rfl
  · rename_i chain h1
    split
    · rfl
    · rename_i e h2
      rw [List.map_set]
      have hlen : (chain.set i (e.1, v)).length = chain.length := by simp
      rw [hlen]
      apply set_self_of_getElem?
      rw [List.getElem?_map, h1]
      rfl

theorem updateValueAt_length (bs : List (List (K × V))) (t i : Nat) (v : V) :
    (updateValueAt bs t i v).length = bs.length := by
  have h := congrArg List.length (updateValueAt_map_length bs t i v)
  simpa using h

/-- Overwriting one stored value in place preserves the structural
invariant: the found arm of `insert`. -/
theorem StructInv.updateValue {s : HashTable K V} (hS : StructInv s) (t i : Nat) (v : V) :
    StructInv { s with buckets := updateValueAt s.buckets t i v } := by
  obtain ⟨hfirst, hsize⟩ := hS
  constructor
  · show s.firstBucketIt = firstNonEmptyFrom (updateValueAt s.buckets t i v) 0
    rw [hfirst]
    simp only [firstNonEmptyFrom, List.drop_zero, Nat.zero_add]
    exact firstNonEmptyOffset_congr (updateValueAt_map_length s.buckets t i v).symm
  · show s.tableSize = ((updateValueAt s.buckets t i v).map List.length).sum
    rw [hsize, updateValueAt_map_length]

/-! ### Preservation of the invariant by the fueled operations -/

theorem insertPrepend_structInv {s : HashTable K V} {chain : List (K × V)} {k : K} (v : V)
    (hS : StructInv s) (hchain : s.buckets[hashF k % s.buckets.length]? = some chain) :
    StructInv (insertPrepend hashF s k v chain) :=
  StructInv.prepend hS hchain k v

theorem insertPrepend_maxLoadFactor (s : HashTable K V) (k : K) (v : V)
    (chain : List (K × V)) :
    (insertPrepend hashF s k v chain).maxLoadFactor = s.maxLoadFactor := rfl

theorem insertPrepend_bucketsLength (s : HashTable K V) (k : K) (v : V)
    (chain : List (K × V)) :
    (insertPrepend hashF s k v chain).buckets.length = s.buckets.length := by
  simp [insertPrepend]

theorem insertPrepend_tableSize (s : HashTable K V) (k : K) (v : V)
    (chain : List (K × V)) :
    (insertPrepend hashF s k v chain).tableSize = s.tableSize + 1 := rfl

theorem rehashFuel_zero (s : HashTable K V) (b : Nat) :
    rehashFuel hashF 0 s b = .error ⟨.rangeError, "recursion limit"⟩ := by
  unfold rehashFuel
  rfl

/-- The empty table produced inside `rehash` before reinsertion satisfies
the structural invariant. -/
theorem structInv_freshEmpty (bs : Nat) (f : ℚ) :
    StructInv ({ buckets := List.replicate bs [], firstBucketIt := bs, tableSize := 0,
                 maxLoadFactor := f } : HashTable K V) := by
  constructor
  · show bs = firstNonEmptyFrom (List.replicate bs ([] : List (K × V))) 0
    symm
    refine firstNonEmptyFrom_unique (by omega) (by simp) ?_ ?_
    · intro m _ hm
      simp at hm
      simp [List.getElem?_replicate, hm]
    · left; simp
  · show (0 : Nat) = _
    simp

theorem loadFactor_freshEmpty (bs : Nat) (f : ℚ) (hf : 0 < f) :
    loadFactor ({ buckets := List.replicate bs [], firstBucketIt := bs, tableSize := 0,
                  maxLoadFactor := f } : HashTable K V) ≤ f := by
  simp [loadFactor]
  exact le_of_lt hf

theorem insertItFuel_inv_aux (fuel : Nat)
    (hreh : ∀ (s : HashTable K V) (b : Nat) (s2 : HashTable K V),
      StructInv s → 0 < s.maxLoadFactor → rehashFuel hashF fuel s b = .ok s2 → Inv s2) :
    ∀ (s : HashTable K V) (it : Iterator) (k : K) (v : V) (r : Bool) (s2 : HashTable K V),
      Inv s → insertItFuel hashF fuel s it k v = .ok (r, s2) → Inv s2 := by
  intro s it k v r s2 hs h
  obtain ⟨hS, hf, hload⟩ := hs
  unfold insertItFuel at h
  by_cases hend : it.endFlag
  · rw [if_pos hend] at h
    split at h
    · simp at h
    · rename_i chain hchain
      by_cases htrig : s.maxLoadFactor < (((s.tableSize + 1 : Nat)) : ℚ) / (s.buckets.length : ℚ)
      · rw [if_pos htrig] at h
        split at h
        · simp at h
        · rename_i s3 hreh3
          simp at h
          rw [← h.2]
          refine hreh _ _ _ (insertPrepend_structInv hashF v hS hchain) ?_ hreh3
          rw [insertPrepend_maxLoadFactor]
          exact hf
      · rw [if_neg htrig] at h
        simp at h
        rw [← h.2]
        refine ⟨insertPrepend_structInv hashF v hS hchain, hf, ?_⟩
        have heq : loadFactor (insertPrepend hashF s k v chain)
            = (((s.tableSize + 1 : Nat)) : ℚ) / (s.buckets.length : ℚ) := by
          rw [loadFactor, insertPrepend_tableSize, insertPrepend_bucketsLength]
        rw [heq, insertPrepend_maxLoadFactor]
        exact not_lt.mp htrig
  · rw [if_neg hend] at h
    simp at h
    rw [← h.2]
    refine ⟨StructInv.updateValue hS _ _ _, hf, ?_⟩
    have heq : loadFactor { s with buckets := updateValueAt s.buckets it.bucketIdx it.pos v }
        = loadFactor s := by
      rw [loadFactor, loadFactor]
      rw [show ({ s with buckets := updateValueAt s.buckets it.bucketIdx it.pos v } :
          HashTable K V).buckets.length = s.buckets.length from
        updateValueAt_length s.buckets it.bucketIdx it.pos v]
    rw [heq]
    exact hload

theorem insertFuel_inv_aux (fuel : Nat)
    (hit : ∀ (s : HashTable K V) (it : Iterator) (k : K) (v : V) (r : Bool) (s2 : HashTable K V),
      Inv s → insertItFuel hashF fuel s it k v = .ok (r, s2) → Inv s2) :
    ∀ (s : HashTable K V) (k : K) (v : V) (r : Bool) (s2 : HashTable K V),
      Inv s → insertFuel hashF fuel s k v = .ok (r, s2) → Inv s2 := by
  intro s k v r s2 hs h
  unfold insertFuel at h
  split at h
  · simp at h
  · rename_i it s1 hfind
    have := findS_state hashF hfind
    subst this
    exact hit _ _ _ _ _ _ hs h

theorem reinsertAll_inv_aux (fuel : Nat)
    (hins : ∀ (s : HashTable K V) (k : K) (v : V) (r : Bool) (s2 : HashTable K V),
      Inv s → insertFuel hashF fuel s k v = .ok (r, s2) → Inv s2) :
    ∀ (l : List (K × V)) (s s2 : HashTable K V),
      Inv s → reinsertAllFuel hashF fuel s l = .ok s2 → Inv s2 := by
  intro l
  induction l with
  | nil =>
    intro s s2 hs h
    unfold reinsertAllFuel at h
    simp at h
    rwa [← h]
  | cons e rest ih =>
    intro s s2 hs h
    unfold reinsertAllFuel at h
    split at h
    · simp at h
    · rename_i r smid hmid
      exact ih smid s2 (hins s e.1 e.2 r smid hs hmid) h

theorem rehashFuel_inv_succ (fuel : Nat)
    (hfold : ∀ (l : List (K × V)) (s s2 : HashTable K V),
      Inv s → reinsertAllFuel hashF fuel s l = .ok s2 → Inv s2) :
    ∀ (s : HashTable K V) (b : Nat) (s2 : HashTable K V),
      StructInv s → 0 < s.maxLoadFactor → rehashFuel hashF (fuel + 1) s b = .ok s2 → Inv s2 := by
  intro s b s2 hS hf h
  unfold rehashFuel at h
  split at h
  · simp at h
  · rename_i bs hmin
    by_cases hsame : bs = s.buckets.length
    · rw [if_pos hsame] at h
      simp at h
      rw [← h]
      refine ⟨hS, hf, ?_⟩
      rcases findMinimumBucketSize_ok hf hmin with ⟨hfalse, -⟩ | ⟨-, hmem, hle⟩
      · exact loadFactor_lt_of_loadGEmax_false hf hfalse
      · have hB : 0 < s.buckets.length := by
          have := g_a_sizes_five_le bs hmem
          omega
        rw [loadFactor, div_le_iff₀ (by exact_mod_cast hB)]
        calc (s.tableSize : ℚ) ≤ s.maxLoadFactor * (bs : ℚ) := hle
          _ = s.maxLoadFactor * (s.buckets.length : ℚ) := by rw [hsame]
    · rw [if_neg hsame] at h
      refine hfold _ _ _ ?_ h
      exact ⟨structInv_freshEmpty bs s.maxLoadFactor, hf,
        loadFactor_freshEmpty bs s.maxLoadFactor hf⟩

/-- Joint invariant preservation for all four fueled operations. -/
theorem inv_fuel : ∀ fuel : Nat,
    (∀ (s : HashTable K V) (b : Nat) (s2 : HashTable K V),
      StructInv s → 0 < s.maxLoadFactor → rehashFuel hashF fuel s b = .ok s2 → Inv s2) ∧
    (∀ (s : HashTable K V) (it : Iterator) (k : K) (v : V) (r : Bool) (s2 : HashTable K V),
      Inv s → insertItFuel hashF fuel s it k v = .ok (r, s2) → Inv s2) ∧
    (∀ (s : HashTable K V) (k : K) (v : V) (r : Bool) (s2 : HashTable K V),
      Inv s → insertFuel hashF fuel s k v = .ok (r, s2) → Inv s2) ∧
    (∀ (l : List (K × V)) (s s2 : HashTable K V),
      Inv s → reinsertAllFuel hashF fuel s l = .ok s2 → Inv s2) := by
  intro fuel
  induction fuel with
  | zero =>
    have hreh : ∀ (s : HashTable K V) (b : Nat) (s2 : HashTable K V),
        StructInv s → 0 < s.maxLoadFactor → rehashFuel hashF 0 s b = .ok s2 → Inv s2 := by
      intro s b s2 _ _ h
      rw [rehashFuel_zero] at h
      simp at h
    have hit := insertItFuel_inv_aux hashF 0 hreh
    have hins := insertFuel_inv_aux hashF 0 hit
    exact ⟨hreh, hit, hins, reinsertAll_inv_aux hashF 0 hins⟩
  | succ f ih =>
    have hreh := rehashFuel_inv_succ hashF f (reinsertAll_inv_aux hashF f ih.2.2.1)
    have hit := insertItFuel_inv_aux hashF (f + 1) hreh
    have hins := insertFuel_inv_aux hashF (f + 1) hit
    exact ⟨hreh, hit, hins, reinsertAll_inv_aux hashF (f + 1) hins⟩

/-! ### The invariant holds in every reachable state -/

theorem inv_defaultTable : Inv (defaultTable : HashTable K V) := by
  refine ⟨?_, ?_, ?_⟩
  · exact structInv_freshEmpty DEFAULT_BUCKET_SIZE (1/2)
  · show (0 : ℚ) < 1/2
    norm_num
  · exact loadFactor_freshEmpty DEFAULT_BUCKET_SIZE (1/2) (by norm_num)

theorem inv_ofBucketSize {b : Nat} {s : HashTable K V}
    (h : ofBucketSize b = .ok s) : Inv s := by
  simp only [ofBucketSize] at h
  split at h
  · simp at h
  · rename_i bs hmin
    simp at h
    rw [← h]
    exact ⟨structInv_freshEmpty bs _, by norm_num,
      loadFactor_freshEmpty bs _ (by norm_num)⟩

theorem inv_insert {s s2 : HashTable K V} {k : K} {v : V} {r : Bool}
    (hs : Inv s) (h : insert hashF s k v = .ok (r, s2)) : Inv s2 :=
  (inv_fuel hashF FUEL).2.2.1 s k v r s2 hs h

theorem inv_insertIt {s s2 : HashTable K V} {it : Iterator} {k : K} {v : V} {r : Bool}
    (hs : Inv s) (h : insertIt hashF s it k v = .ok (r, s2)) : Inv s2 :=
  (inv_fuel hashF FUEL).2.1 s it k v r s2 hs h

theorem inv_rehash {s s2 : HashTable K V} {b : Nat}
    (hs : Inv s) (h : rehash hashF s b = .ok s2) : Inv s2 :=
  (inv_fuel hashF FUEL).1 s b s2 hs.1 hs.2.1 h

theorem inv_eraseIt {s : HashTable K V} {k : K} {it : Iterator}
    (hs : Inv s) (hfind : findS hashF s k = .ok (it, s)) : Inv (eraseIt s it).2 := by
  obtain ⟨⟨hfirst, hsize⟩, hf, hload⟩ := hs
  by_cases hend : it.endFlag
  · unfold eraseIt
    rw [if_pos hend]
    exact ⟨⟨hfirst, hsize⟩, hf, hload⟩
  · obtain ⟨-, hbidx, hblt, chain, hchain, hcfi⟩ :=
      findS_found hashF hfind (by simpa using hend)
    have hpos : it.pos < chain.length := chainFindIdx_lt_length hcfi
    have hchain_ne : chain ≠ [] := by
      intro hnil
      subst hnil
      simp at hpos
    have ht_ge : s.firstBucketIt ≤ it.bucketIdx := by
      by_contra hlt
      push_neg at hlt
      have hemp : s.buckets[it.bucketIdx]? = some [] :=
        firstNonEmptyFrom_prefix (i := 0) (by omega) (by rw [← hfirst]; omega)
      rw [hchain] at hemp
      simp at hemp
      exact hchain_ne hemp
    have herase : eraseEntryAt s.buckets it.bucketIdx it.pos
        = s.buckets.set it.bucketIdx (chain.eraseIdx it.pos) := by
      unfold eraseEntryAt
      rw [hchain]
    have hlen_erase : (chain.eraseIdx it.pos).length = chain.length - 1 := by
      rw [List.length_eraseIdx]
      simp [hpos]
    have hsum := sum_map_length_set hchain (chain.eraseIdx it.pos)
    have hchain_le := length_le_sum_map hchain
    have hBpos : 0 < s.buckets.length := by omega
    have hBq : (0 : ℚ) < (s.buckets.length : ℚ) := by exact_mod_cast hBpos
    have hloadstep : ((s.tableSize - 1 : Nat) : ℚ) / (s.buckets.length : ℚ)
        ≤ s.maxLoadFactor := by
      calc ((s.tableSize - 1 : Nat) : ℚ) / (s.buckets.length : ℚ)
          ≤ (s.tableSize : ℚ) / (s.buckets.length : ℚ) := by
            gcongr
            exact_mod_cast Nat.sub_le s.tableSize 1
        _ ≤ s.maxLoadFactor := hload
    unfold eraseIt
    rw [if_neg hend]
    by_cases hcase : s.firstBucketIt < it.bucketIdx
    · rw [if_pos hcase]
      refine ⟨⟨?_, ?_⟩, hf, ?_⟩
      · show s.firstBucketIt
            = firstNonEmptyFrom (eraseEntryAt s.buckets it.bucketIdx it.pos) 0
        rw [herase]
        symm
        refine firstNonEmptyFrom_unique (by omega)
          (by simp [List.length_set]; rw [hfirst]; exact firstNonEmptyFrom_le (by omega)) ?_ ?_
        · intro m hm0 hmf
          rw [List.getElem?_set_ne (by omega)]
          refine firstNonEmptyFrom_prefix (i := 0) (by omega) ?_
          rw [← hfirst]
          omega
        · right
          have hflt : firstNonEmptyFrom s.buckets 0 < s.buckets.length := by
            rw [← hfirst]
            omega
          obtain ⟨c, hc, hcne⟩ := firstNonEmptyFrom_get hflt
          rw [← hfirst] at hc
          refine ⟨c, ?_, hcne⟩
          rw [List.getElem?_set_ne (by omega)]
          exact hc
      · show s.tableSize - 1
            = ((eraseEntryAt s.buckets it.bucketIdx it.pos).map List.length).sum
        rw [herase]
        omega
      · show loadFactor _ ≤ _
        have hlen2 : (eraseEntryAt s.buckets it.bucketIdx it.pos).length
            = s.buckets.length := by
          rw [herase, List.length_set]
        rw [loadFactor]
        simp only [hlen2]
        exact hloadstep
    · rw [if_neg hcase]
      have hteq : it.bucketIdx = s.firstBucketIt := by omega
      refine ⟨⟨?_, ?_⟩, hf, ?_⟩
      · show firstNonEmptyFrom (eraseEntryAt s.buckets it.bucketIdx it.pos) it.bucketIdx
            = firstNonEmptyFrom (eraseEntryAt s.buckets it.bucketIdx it.pos) 0
        symm
        refine firstNonEmptyFrom_skip ?_ ?_
        · rw [herase, List.length_set]
          omega
        · intro m hm
          rw [herase, List.getElem?_set_ne (by omega)]
          refine firstNonEmptyFrom_prefix (i := 0) (by omega) ?_
          rw [← hfirst]
          omega
      · show s.tableSize - 1
            = ((eraseEntryAt s.buckets it.bucketIdx it.pos).map List.length).sum
        rw [herase]
        omega
      · show loadFactor _ ≤ _
        have hlen2 : (eraseEntryAt s.buckets it.bucketIdx it.pos).length
            = s.buckets.length := by
          rw [herase, List.length_set]
        rw [loadFactor]
        simp only [hlen2]
        exact hloadstep

theorem inv_eraseKey {s s2 : HashTable K V} {k : K} {r : Bool}
    (hs : Inv s) (h : eraseKey hashF s k = .ok (r, s2)) : Inv s2 := by
  unfold eraseKey at h
  split at h
  · simp at h
  · rename_i it s1 hfind
    by_cases hend : it.endFlag
    · rw [if_pos hend] at h
      simp at h
      rw [← h.2]
      have := findS_state hashF hfind
      subst this
      exact hs
    · rw [if_neg hend] at h
      simp at h
      rw [← h.2]
      have hseq := findS_state hashF hfind
      subst hseq
      exact inv_eraseIt hashF hs hfind

theorem inv_opIndex {s s2 : HashTable K V} {k : K} {v : V}
    (hs : Inv s) (h : opIndex hashF s k = .ok (v, s2)) : Inv s2 := by
  unfold opIndex at h
  split at h
  · simp at h
  · rename_i it s1 hfind
    have hseq := findS_state hashF hfind
    subst hseq
    by_cases hend : it.endFlag
    · rw [if_pos hend] at h
      split at h
      · simp at h
      · rename_i r smid hins
        split at h
        · simp at h
        · rename_i it2 s3 hfind2
          have hseq2 := findS_state hashF hfind2
          subst hseq2
          split at h
          · simp at h
          · rename_i e hder
            simp at h
            rw [← h.2]
            exact inv_insert hashF hs hins
    · rw [if_neg hend] at h
      split at h
      · simp at h
      · rename_i e hder
        simp at h
        rw [← h.2]
        exact hs

theorem inv_setMaxLoadFactor {s s2 : HashTable K V} {f : ℚ}
    (hs : Inv s) (h : setMaxLoadFactor hashF s f = .ok s2) : Inv s2 := by
  unfold setMaxLoadFactor at h
  split at h
  · simp at h
  · rename_i hgt
    push_neg at hgt
    refine (inv_fuel hashF FUEL).1 _ _ _ ?_ ?_ h
    · exact hs.1
    · show (0 : ℚ) < f
      have : (0 : ℚ) < 1 / 1000000000 := by norm_num
      linarith

theorem reachable_inv {s : HashTable K V} (h : Reachable hashF s) : Inv s := by
  induction h with
  | default_ctor => exact inv_defaultTable
  | sized_ctor b s h => exact inv_ofBucketSize h
  | insert_step s k v r s2 _ h ih => exact inv_insert hashF ih h
  | insertIt_step s s1 s2 k v it r _ hfind hins ih =>
    have := findS_state hashF hfind
    subst this
    exact inv_insertIt hashF ih hins
  | eraseKey_step s s2 k r _ h ih => exact inv_eraseKey hashF ih h
  | eraseIt_step s s1 k it _ hfind ih =>
    have hseq := findS_state hashF hfind
    subst hseq
    exact inv_eraseIt hashF ih hfind
  | rehash_step s s2 b _ h ih => exact inv_rehash hashF ih h
  | opIndex_step s s2 k v _ h ih => exact inv_opIndex hashF ih h
  | setMaxLoadFactor_step s s2 f _ h ih => exact inv_setMaxLoadFactor hashF ih h
  | copy_step s _ ih => exact ih

/-! ### Full traversal visits exactly the stored entries -/

theorem getD_of_getElem? {α : Type _} (d : α) :
    ∀ {l : List α} {i : Nat} {a : α}, l[i]? = some a → l.getD i d = a := by
  intro l
  induction l with
  | nil => intro i a h; simp at h
  | cons x xs ih =>
    intro i a h
    cases i with
    | zero => simp at h; simp [h]
    | succ j =>
      simp only [List.getElem?_cons_succ] at h
      simpa [List.getD_cons_succ] using ih h

theorem traverseAux_end (s : HashTable K V) (it : Iterator) (hend : it.endFlag = true) :
    ∀ fuel, traverseAux s it fuel = [] := by
  intro fuel
  cases fuel with
  | zero => rfl
  | succ f =>
    unfold traverseAux
    rw [if_pos hend]

/-- Adequacy of the fueled collection loop: started on a valid non-end
iterator with enough fuel, it yields the rest of the current chain followed
by all entries of the later buckets. -/
theorem traverseAux_adequate :
    ∀ (fuel : Nat) (s : HashTable K V) (i pos : Nat) (chain : List (K × V)),
      s.buckets[i]? = some chain → pos < chain.length →
      (chain.length - pos) + ((s.buckets.drop (i + 1)).map List.length).sum ≤ fuel →
      traverseAux s ⟨i, pos, false⟩ fuel
        = chain.drop pos ++ (s.buckets.drop (i + 1)).flatten := by
  intro fuel
  induction fuel with
  | zero =>
    intro s i pos chain hch hpos hbound
    omega
  | succ f ih =>
    intro s i pos chain hch hpos hbound
    have hilt : i < s.buckets.length := (List.getElem?_eq_some.mp hch).1
    have hgetD : s.buckets.getD i [] = chain := getD_of_getElem? [] hch
    have hderef : derefEntry s ⟨i, pos, false⟩ = some chain[pos] := by
      unfold derefEntry
      simp only [hgetD]
      exact List.getElem?_eq_getElem hpos
    have hdropchain : chain.drop pos = chain[pos] :: chain.drop (pos + 1) :=
      List.drop_eq_getElem_cons hpos
    unfold traverseAux
    rw [if_neg (by simp), hderef]
    show chain[pos] :: traverseAux s (increment s ⟨i, pos, false⟩) f
        = chain.drop pos ++ (s.buckets.drop (i + 1)).flatten
    by_cases hnext : pos + 1 < chain.length
    · have hinc : increment s ⟨i, pos, false⟩ = ⟨i, pos + 1, false⟩ := by
        unfold increment
        rw [if_neg (by simp; omega)]
        simp only [hgetD]
        rw [if_pos (by exact ⟨hpos, hnext⟩)]
      rw [hinc]
      rw [ih s i (pos + 1) chain hch hnext (by omega)]
      rw [hdropchain, List.cons_append]
    · have hlast : pos + 1 = chain.length := by omega
      have hdrop1 : chain.drop (pos + 1) = [] := by
        rw [hlast, List.drop_length]
      by_cases hscan : firstNonEmptyFrom s.buckets (i + 1) < s.buckets.length
      · -- a later non-empty bucket exists
        have hinc : increment s ⟨i, pos, false⟩
            = ⟨firstNonEmptyFrom s.buckets (i + 1), 0, false⟩ := by
          unfold increment
          rw [if_neg (by simp; omega)]
          simp only [hgetD]
          rw [if_neg (by omega)]
          simp only [hscan, if_pos]
        obtain ⟨cj, hcj, hcjne⟩ := firstNonEmptyFrom_get hscan
        have hcjpos : 0 < cj.length := by
          cases cj with
          | nil => simp at hcjne
          | cons a l => simp
        have hjge := firstNonEmptyFrom_ge (K := K) (V := V) s.buckets (i + 1)
        have hskip := drop_flatten_of_empty (firstNonEmptyFrom s.buckets (i + 1) - (i + 1))
          s.buckets (i + 1) (firstNonEmptyFrom s.buckets (i + 1)) (by omega) (by omega)
          (fun m hm1 hm2 => firstNonEmptyFrom_prefix hm1 hm2)
        have hjlt : firstNonEmptyFrom s.buckets (i + 1) < s.buckets.length := hscan
        have hcjget : s.buckets[firstNonEmptyFrom s.buckets (i + 1)] = cj := by
          have := List.getElem?_eq_getElem hjlt
          rw [this] at hcj
          exact Option.some.inj hcj
        have hdropj : s.buckets.drop (firstNonEmptyFrom s.buckets (i + 1))
            = cj :: s.buckets.drop (firstNonEmptyFrom s.buckets (i + 1) + 1) := by
          rw [List.drop_eq_getElem_cons hjlt, hcjget]
        have hsum_eq : ((s.buckets.drop (i + 1)).map List.length).sum
            = cj.length
              + ((s.buckets.drop (firstNonEmptyFrom s.buckets (i + 1) + 1)).map List.length).sum := by
          rw [hskip.2, hdropj]
          simp
        have hflat : (s.buckets.drop (i + 1)).flatten
            = cj ++ (s.buckets.drop (firstNonEmptyFrom s.buckets (i + 1) + 1)).flatten := by
          rw [hskip.1, hdropj]
          simp
        rw [hinc]
        rw [ih s (firstNonEmptyFrom s.buckets (i + 1)) 0 cj hcj hcjpos (by omega)]
        rw [hdropchain, hdrop1, hflat]
        simp
      · -- all later buckets are empty
        have hinc : increment s ⟨i, pos, false⟩ = ⟨s.buckets.length, pos, true⟩ := by
          unfold increment
          rw [if_neg (by simp; omega)]
          simp only [hgetD]
          rw [if_neg (by omega)]
          simp only [hscan, if_neg, ite_false]
        have hjge := firstNonEmptyFrom_ge (K := K) (V := V) s.buckets (i + 1)
        have hempty := drop_flatten_of_empty (s.buckets.length - (i + 1))
          s.buckets (i + 1) s.buckets.length (by omega) (by omega)
          (fun m hm1 hm2 => firstNonEmptyFrom_prefix hm1 (by omega))
        rw [hinc, traverseAux_end s _ rfl, hdropchain, hdrop1, hempty.1, List.drop_length]
        simp

/-- On a structurally sound table, the `begin()`-to-`end()` traversal is the
concatenation of all chains, hence visits exactly `size()` entries. -/
theorem traversalList_spec {s : HashTable K V} (hS : StructInv s) :
    traversalList s = s.buckets.flatten ∧ (traversalList s).length = s.tableSize := by
  obtain ⟨hfirst, hsize⟩ := hS
  have hmain : traversalList s = s.buckets.flatten := by
    unfold traversalList beginIter
    by_cases hne : s.firstBucketIt ≠ s.buckets.length
    · rw [if_pos hne]
      have hfle : firstNonEmptyFrom s.buckets 0 ≤ s.buckets.length :=
        firstNonEmptyFrom_le (by omega)
      have hflt : s.firstBucketIt < s.buckets.length := by omega
      have hflt2 : firstNonEmptyFrom s.buckets 0 < s.buckets.length := by
        rw [← hfirst]; exact hflt
      obtain ⟨c, hc, hcne⟩ := firstNonEmptyFrom_get hflt2
      rw [← hfirst] at hc
      have hcpos : 0 < c.length := by
        cases c with
        | nil => simp at hcne
        | cons a l => simp
      have hclt : s.firstBucketIt < s.buckets.length := hflt
      have hcget : s.buckets[s.firstBucketIt] = c := by
        have := List.getElem?_eq_getElem hclt
        rw [this] at hc
        exact Option.some.inj hc
      have hdropf : s.buckets.drop s.firstBucketIt
          = c :: s.buckets.drop (s.firstBucketIt + 1) := by
        rw [List.drop_eq_getElem_cons hclt, hcget]
      have hskip := drop_flatten_of_empty s.firstBucketIt s.buckets 0 s.firstBucketIt
        (by omega) (by omega)
        (fun m hm1 hm2 => firstNonEmptyFrom_prefix (i := 0) (by omega) (by rw [← hfirst]; omega))
      have hsum_eq : (s.buckets.map List.length).sum
          = c.length + ((s.buckets.drop (s.firstBucketIt + 1)).map List.length).sum := by
        have h0 : ((s.buckets.drop 0).map List.length).sum = (s.buckets.map List.length).sum := by
          rw [List.drop_zero]
        rw [← h0, hskip.2, hdropf]
        simp
      rw [traverseAux_adequate ((s.buckets.map List.length).sum + 1) s s.firstBucketIt 0 c hc
        hcpos (by omega)]
      have hflat : s.buckets.flatten = c ++ (s.buckets.drop (s.firstBucketIt + 1)).flatten := by
        have h0 : (s.buckets.drop 0).flatten = s.buckets.flatten := by rw [List.drop_zero]
        rw [← h0, hskip.1, hdropf]
        simp
      rw [hflat]
      simp
    · rw [if_neg hne]
      push_neg at hne
      have hallempty : ∀ c ∈ s.buckets, c = [] := by
        intro c hmem
        by_contra hcne
        have := firstNonEmptyOffset_lt_of_mem hmem hcne
        have h0 : firstNonEmptyFrom s.buckets 0 = firstNonEmptyOffset s.buckets := by
          simp [firstNonEmptyFrom]
        omega
      rw [traverseAux_end s _ rfl]
      symm
      rw [List.flatten_eq_nil_iff]
      exact hallempty
  refine ⟨hmain, ?_⟩
  rw [hmain, List.length_flatten, ← hsize]

/-! ### The operations never change the stored maximum load factor
(except `setMaxLoadFactor` itself) -/

theorem insertItFuel_mlf_aux (fuel : Nat)
    (hreh : ∀ (s : HashTable K V) (b : Nat) (s2 : HashTable K V),
      rehashFuel hashF fuel s b = .ok s2 → s2.maxLoadFactor = s.maxLoadFactor) :
    ∀ (s : HashTable K V) (it : Iterator) (k : K) (v : V) (r : Bool) (s2 : HashTable K V),
      insertItFuel hashF fuel s it k v = .ok (r, s2) → s2.maxLoadFactor = s.maxLoadFactor := by
  intro s it k v r s2 h
  unfold insertItFuel at h
  by_cases hend : it.endFlag
  · rw [if_pos hend] at h
    split at h
    · simp at h
    · rename_i chain hchain
      by_cases htrig : s.maxLoadFactor < (((s.tableSize + 1 : Nat)) : ℚ) / (s.buckets.length : ℚ)
      · rw [if_pos htrig] at h
        split at h
        · simp at h
        · rename_i s3 hreh3
          simp at h
          rw [← h.2, hreh _ _ _ hreh3]
          rfl
      · rw [if_neg htrig] at h
        simp at h
        rw [← h.2]
        rfl
  · rw [if_neg hend] at h
    simp at h
    rw [← h.2]

theorem insertFuel_mlf_aux (fuel : Nat)
    (hit : ∀ (s : HashTable K V) (it : Iterator) (k : K) (v : V) (r : Bool) (s2 : HashTable K V),
      insertItFuel hashF fuel s it k v = .ok (r, s2) → s2.maxLoadFactor = s.maxLoadFactor) :
    ∀ (s : HashTable K V) (k : K) (v : V) (r : Bool) (s2 : HashTable K V),
      insertFuel hashF fuel s k v = .ok (r, s2) → s2.maxLoadFactor = s.maxLoadFactor := by
  intro s k v r s2 h
  unfold insertFuel at h
  split at h
  · simp at h
  · rename_i it s1 hfind
    have := findS_state hashF hfind
    subst this
    exact hit _ _ _ _ _ _ h

theorem reinsertAll_mlf_aux (fuel : Nat)
    (hins : ∀ (s : HashTable K V) (k : K) (v : V) (r : Bool) (s2 : HashTable K V),
      insertFuel hashF fuel s k v = .ok (r, s2) → s2.maxLoadFactor = s.maxLoadFactor) :
    ∀ (l : List (K × V)) (s s2 : HashTable K V),
      reinsertAllFuel hashF fuel s l = .ok s2 → s2.maxLoadFactor = s.maxLoadFactor := by
  intro l
  induction l with
  | nil =>
    intro s s2 h
    unfold reinsertAllFuel at h
    simp at h
    rw [← h]
  | cons e rest ih =>
    intro s s2 h
    unfold reinsertAllFuel at h
    split at h
    · simp at h
    · rename_i r smid hmid
      rw [ih smid s2 h]
      exact hins s e.1 e.2 r smid hmid

theorem rehashFuel_mlf_succ (fuel : Nat)
    (hfold : ∀ (l : List (K × V)) (s s2 : HashTable K V),
      reinsertAllFuel hashF fuel s l = .ok s2 → s2.maxLoadFactor = s.maxLoadFactor) :
    ∀ (s : HashTable K V) (b : Nat) (s2 : HashTable K V),
      rehashFuel hashF (fuel + 1) s b = .ok s2 → s2.maxLoadFactor = s.maxLoadFactor := by
  intro s b s2 h
  unfold rehashFuel at h
  split at h
  · simp at h
  · rename_i bs hmin
    by_cases hsame : bs = s.buckets.length
    · rw [if_pos hsame] at h
      simp at h
      rw [← h]
    · rw [if_neg hsame] at h
      rw [hfold _ _ _ h]

theorem mlf_fuel : ∀ fuel : Nat,
    (∀ (s : HashTable K V) (b : Nat) (s2 : HashTable K V),
      rehashFuel hashF fuel s b = .ok s2 → s2.maxLoadFactor = s.maxLoadFactor) ∧
    (∀ (s : HashTable K V) (k : K) (v : V) (r : Bool) (s2 : HashTable K V),
      insertFuel hashF fuel s k v = .ok (r, s2) → s2.maxLoadFactor = s.maxLoadFactor) := by
  intro fuel
  induction fuel with
  | zero =>
    have hreh : ∀ (s : HashTable K V) (b : Nat) (s2 : HashTable K V),
        rehashFuel hashF 0 s b = .ok s2 → s2.maxLoadFactor = s.maxLoadFactor := by
      intro s b s2 h
      rw [rehashFuel_zero] at h
      simp at h
    exact ⟨hreh, insertFuel_mlf_aux hashF 0 (insertItFuel_mlf_aux hashF 0 hreh)⟩
  | succ f ih =>
    have hreh := rehashFuel_mlf_succ hashF f (reinsertAll_mlf_aux hashF f ih.2)
    exact ⟨hreh, insertFuel_mlf_aux hashF (f + 1) (insertItFuel_mlf_aux hashF (f + 1) hreh)⟩

/-! ### Overwriting the found entry -/

theorem chainFindIdx_set_value {k : K} (v : V) :
    ∀ {l : List (K × V)} {i : Nat} {e : K × V},
      chainFindIdx k l = some i → l[i]? = some e →
      chainFindIdx k (l.set i (e.1, v)) = some i := by
  intro l
  induction l with
  | nil => intro i e h _; simp [chainFindIdx] at h
  | cons x xs ih =>
    intro i e h hget
    by_cases hx : x.1 = k
    · simp [chainFindIdx, hx] at h
      subst h
      simp at hget
      subst hget
      simp [chainFindIdx, hx]
    · simp [chainFindIdx, hx] at h
      obtain ⟨i0, hi0, rfl⟩ := h
      simp only [List.getElem?_cons_succ] at hget
      have hrec := ih hi0 hget
      simp [List.set_cons_succ, chainFindIdx, hx, hrec]

/-! ### Concrete evaluations used by the witnesses and counterexamples -/

theorem replicate_five_eval :
    List.replicate 5 ([] : List (Nat × Nat)) = [[], [], [], [], []] := rfl

theorem defaultTable_eval :
    (defaultTable : HashTable Nat Nat)
      = { buckets := [[], [], [], [], []], firstBucketIt := 5, tableSize := 0,
          maxLoadFactor := 1/2 } := rfl

theorem findS_defaultTable_eval :
    findS (K := Nat) (V := Nat) id defaultTable 0
      = .ok ({ bucketIdx := 5, pos := 0, endFlag := true }, defaultTable) := by
  rw [defaultTable_eval]
  norm_num [findS, chainFindIdx]

theorem insert_defaultTable_eval :
    insert (K := Nat) (V := Nat) id defaultTable 0 7
      = .ok (true, { buckets := [[(0, 7)], [], [], [], []], firstBucketIt := 0,
                     tableSize := 1, maxLoadFactor := 1/2 }) := by
  show insertFuel (K := Nat) (V := Nat) id FUEL defaultTable 0 7 = _
  unfold insertFuel
  rw [findS_defaultTable_eval]
  show insertItFuel (K := Nat) (V := Nat) id FUEL defaultTable ⟨5, 0, true⟩ 0 7 = _
  unfold insertItFuel
  rw [if_pos rfl, defaultTable_eval]
  norm_num [insertPrepend]

theorem findS_oneEntry_eval :
    findS (K := Nat) (V := Nat) id
        { buckets := [[(0, 7)], [], [], [], []], firstBucketIt := 0, tableSize := 1,
          maxLoadFactor := 1/2 } 0
      = .ok ({ bucketIdx := 0, pos := 0, endFlag := false },
             { buckets := [[(0, 7)], [], [], [], []], firstBucketIt := 0, tableSize := 1,
               maxLoadFactor := 1/2 }) := by
  norm_num [findS, chainFindIdx]

theorem eraseIt_oneEntry_eval :
    eraseIt { buckets := [[(0, 7)], [], [], [], []], firstBucketIt := 0, tableSize := 1,
              maxLoadFactor := (1/2 : ℚ) }
        ({ bucketIdx := 0, pos := 0, endFlag := false } : Iterator)
      = ({ bucketIdx := 0, pos := 0, endFlag := false },
         { buckets := [[], [], [], [], []], firstBucketIt := 5, tableSize := 0,
           maxLoadFactor := (1/2 : ℚ) }) := by
  norm_num [eraseIt, eraseEntryAt, firstNonEmptyFrom, firstNonEmptyOffset]

/-! ## The claims -/

/-- C1: the claim says `findMinimumBucketSize(lowerBound)` always returns
the smallest admissible size from the fixed ascending sequence that is both
at least `lowerBound` and large enough for the current entries, throwing an
out-of-range error when the sequence is exhausted.  The code violates its
own contract (stated in the comment above the function): whenever the
current load is below the maximum it returns the raw argument, which need
not be admissible (`findMinimumBucketSize(3)` on a fresh default table
returns `3`, not the smallest admissible size `5`), and it never throws in
that branch even when the argument exceeds every admissible size. -/
theorem c1_findMinimumBucketSize_bug :
    findMinimumBucketSize (defaultTable : HashTable Nat Nat) 3 = .ok 3 ∧
    findMinimumBucketSize (defaultTable : HashTable Nat Nat) 1000000 = .ok 1000000 ∧
    3 ∉ HashPrime.g_a_sizes ∧
    1000000 ∉ HashPrime.g_a_sizes ∧
    5 ∈ HashPrime.g_a_sizes := by
  refine ⟨?_, ?_, by decide, by decide, by decide⟩
  · simp [findMinimumBucketSize, loadGEmax, defaultTable, DEFAULT_BUCKET_SIZE,
      HashPrime.g_a_sizes]
  · simp [findMinimumBucketSize, loadGEmax, defaultTable, DEFAULT_BUCKET_SIZE,
      HashPrime.g_a_sizes]

/-- C4: the claim says constructing with an explicit minimum bucket count
rounds it up to the smallest admissible size (throwing out-of-range when
impossible), and that the default construction uses the default admissible
size.  The second half holds, but the explicit constructor calls
`findMinimumBucketSize` while `buckets` is still empty, so the load test
compares `0.0 / 0.0` (NaN) against the maximum and fails, and the raw
argument is used unchanged: `HashTable(3)` yields 3 buckets although 3 is
not admissible, and no argument ever makes the constructor throw. -/
theorem c4_constructor_bug :
    (ofBucketSize 3 : Except Exc (HashTable Nat Nat))
      = .ok { buckets := List.replicate 3 [], firstBucketIt := 3, tableSize := 0,
              maxLoadFactor := 1/2 } ∧
    (∀ b : Nat, ofBucketSize (K := Nat) (V := Nat) b
      = .ok { buckets := List.replicate b [], firstBucketIt := b, tableSize := 0,
              maxLoadFactor := 1/2 }) ∧
    3 ∉ HashPrime.g_a_sizes ∧
    (defaultTable : HashTable Nat Nat).buckets.length = DEFAULT_BUCKET_SIZE ∧
    DEFAULT_BUCKET_SIZE ∈ HashPrime.g_a_sizes := by
  refine ⟨?_, ?_, by decide, ?_, by decide⟩
  · simp [ofBucketSize, findMinimumBucketSize, loadGEmax]
  · intro b
    simp [ofBucketSize, findMinimumBucketSize, loadGEmax]
  · simp [defaultTable]

/-- C5: the claim says `find(key)` on an absent key returns a locator that
encodes the target bucket `hash(key) % bucketCount`, so a later insert can
avoid re-hashing.  The code instead returns
`Iterator(this, buckets.end(), buckets.begin()->before_begin())` — the
bucket cursor is the end sentinel, not the target bucket — and the insert
path recomputes `hashKey(key)` from scratch.  Concretely, looking up the
absent key 3 in a fresh default table (target bucket `3 % 5 = 3`) yields a
locator whose bucket offset is `5`, the bucket count. -/
theorem c5_find_notFound_bug :
    findS (K := Nat) (V := Nat) id defaultTable 3
      = .ok ({ bucketIdx := 5, pos := 0, endFlag := true }, defaultTable) ∧
    hashKey (K := Nat) (V := Nat) id defaultTable 3 = 3 ∧
    bucketSize (K := Nat) (V := Nat) defaultTable = 5 ∧
    ({ bucketIdx := 5, pos := 0, endFlag := true } : Iterator).bucketIdx
      ≠ hashKey (K := Nat) (V := Nat) id defaultTable 3 := by
  have h1 : hashKey (K := Nat) (V := Nat) id defaultTable 3 = 3 := by
    rw [defaultTable_eval]
    norm_num [hashKey]
  refine ⟨?_, h1, ?_, ?_⟩
  · rw [defaultTable_eval]
    norm_num [findS, chainFindIdx]
  · rw [defaultTable_eval]
    norm_num [bucketSize]
  · rw [h1]
    norm_num

/-- C6: the claim says `erase(locator)` returns an iterator equal to the
logical successor of the erased entry, or the end iterator when the erased
entry was the last one (and is a no-op returning its argument on a
not-found locator).  The code returns its argument unchanged; when the
erased entry was the last element of its chain that iterator does not
compare equal (per `Iterator::operator==`) to the successor.  Concretely:
in a table holding only the entry `(0, 7)`, erasing through the locator of
key 0 empties the table, so the successor is `end()`, yet the returned
iterator still points at bucket 0 with `endFlag = false` and compares
unequal to `end()`. -/
theorem c6_erase_successor_bug :
    insert (K := Nat) (V := Nat) id defaultTable 0 7
      = .ok (true, { buckets := [[(0, 7)], [], [], [], []], firstBucketIt := 0,
                     tableSize := 1, maxLoadFactor := 1/2 }) ∧
    findS (K := Nat) (V := Nat) id
        { buckets := [[(0, 7)], [], [], [], []], firstBucketIt := 0, tableSize := 1,
          maxLoadFactor := 1/2 } 0
      = .ok ({ bucketIdx := 0, pos := 0, endFlag := false },
             { buckets := [[(0, 7)], [], [], [], []], firstBucketIt := 0, tableSize := 1,
               maxLoadFactor := 1/2 }) ∧
    eraseIt { buckets := [[(0, 7)], [], [], [], []], firstBucketIt := 0, tableSize := 1,
              maxLoadFactor := (1/2 : ℚ) }
        ({ bucketIdx := 0, pos := 0, endFlag := false } : Iterator)
      = ({ bucketIdx := 0, pos := 0, endFlag := false },
         { buckets := [[], [], [], [], []], firstBucketIt := 5, tableSize := 0,
           maxLoadFactor := (1/2 : ℚ) }) ∧
    size ({ buckets := [[], [], [], [], []], firstBucketIt := 5, tableSize := 0,
            maxLoadFactor := (1/2 : ℚ) } : HashTable Nat Nat) = 0 ∧
    iterEq { bucketIdx := 0, pos := 0, endFlag := false }
        (endIter ({ buckets := [[], [], [], [], []], firstBucketIt := 5, tableSize := 0,
                    maxLoadFactor := (1/2 : ℚ) } : HashTable Nat Nat)) = false ∧
    iterNe { bucketIdx := 0, pos := 0, endFlag := false }
        (endIter ({ buckets := [[], [], [], [], []], firstBucketIt := 5, tableSize := 0,
                    maxLoadFactor := (1/2 : ℚ) } : HashTable Nat Nat)) = true := by
  refine ⟨insert_defaultTable_eval, findS_oneEntry_eval, eraseIt_oneEntry_eval, rfl, ?_, ?_⟩
  · norm_num [iterEq, endIter]
  · norm_num [iterNe, endIter]

/-- C2: after every `insert(key, value)` or `insert(locator, key, value)`
call that returns without throwing, on any reachable table, the load factor
is at most the maximum load factor: a rehash is triggered inside `insert`
exactly when the new entry pushes the load above the threshold, and it
always reaches an admissible bucket count large enough for all entries. -/
theorem c2_insert_loadFactor {s : HashTable K V} (hs : Reachable hashF s) :
    (∀ (k : K) (v : V) (r : Bool) (s2 : HashTable K V),
      insert hashF s k v = .ok (r, s2) → loadFactor s2 ≤ getMaxLoadFactor s2) ∧
    (∀ (k : K) (v : V) (it : Iterator) (s1 : HashTable K V) (r : Bool) (s2 : HashTable K V),
      findS hashF s k = .ok (it, s1) → insertIt hashF s1 it k v = .ok (r, s2) →
      loadFactor s2 ≤ getMaxLoadFactor s2) := by
  have hInv := reachable_inv hashF hs
  constructor
  · intro k v r s2 h
    exact (inv_insert hashF hInv h).2.2
  · intro k v it s1 r s2 hfind h
    have := findS_state hashF hfind
    subst this
    exact (inv_insertIt hashF hInv h).2.2

theorem c2_insert_loadFactor_witness :
    loadFactor ({ buckets := [[(0, 7)], [], [], [], []], firstBucketIt := 0, tableSize := 1,
                  maxLoadFactor := 1/2 } : HashTable Nat Nat)
      ≤ getMaxLoadFactor ({ buckets := [[(0, 7)], [], [], [], []], firstBucketIt := 0,
                            tableSize := 1, maxLoadFactor := 1/2 } : HashTable Nat Nat) :=
  (c2_insert_loadFactor id Reachable.default_ctor).1 0 7 true _ insert_defaultTable_eval

/-- C3: in every table state reachable through the public mutating
operations (completing without throwing), the cached cursor
`firstBucketIt` equals the index of the true first non-empty bucket, and it
equals the end sentinel `buckets.size()` exactly when the table is empty. -/
theorem c3_firstBucket_cursor {s : HashTable K V} (hs : Reachable hashF s) :
    s.firstBucketIt = firstNonEmptyFrom s.buckets 0 ∧
    (s.firstBucketIt = s.buckets.length ↔ size s = 0) := by
  obtain ⟨⟨hfirst, hsize⟩, -, -⟩ := reachable_inv hashF hs
  refine ⟨hfirst, ?_, ?_⟩
  · intro h
    show s.tableSize = 0
    rw [hsize, List.sum_eq_zero_iff]
    intro x hx
    obtain ⟨c, hc, rfl⟩ := List.mem_map.mp hx
    by_contra hne0
    have hcne : c ≠ [] := by
      intro hnil
      subst hnil
      simp at hne0
    have hlt := firstNonEmptyOffset_lt_of_mem hc hcne
    have hzero : firstNonEmptyFrom s.buckets 0 = firstNonEmptyOffset s.buckets := by
      simp [firstNonEmptyFrom]
    omega
  · intro h
    have hsum0 : (s.buckets.map List.length).sum = 0 := by
      rw [← hsize]
      exact h
    have hall : ∀ m, m < s.buckets.length → s.buckets[m]? = some [] := by
      intro m hm
      have hmem : s.buckets[m] ∈ s.buckets := List.getElem_mem hm
      have hlen0 : (s.buckets[m]).length = 0 :=
        List.sum_eq_zero_iff.mp hsum0 _ (List.mem_map.mpr ⟨s.buckets[m], hmem, rfl⟩)
      rw [List.getElem?_eq_getElem hm, List.length_eq_zero.mp hlen0]
    rw [hfirst]
    exact firstNonEmptyFrom_unique (by omega) (by omega) (fun m _ hm => hall m (by omega))
      (Or.inl rfl)

theorem c3_firstBucket_cursor_witness :
    ({ buckets := [[(0, 7)], [], [], [], []], firstBucketIt := 0, tableSize := 1,
       maxLoadFactor := 1/2 } : HashTable Nat Nat).firstBucketIt
      = firstNonEmptyFrom
          ({ buckets := [[(0, 7)], [], [], [], []], firstBucketIt := 0, tableSize := 1,
             maxLoadFactor := 1/2 } : HashTable Nat Nat).buckets 0 :=
  (c3_firstBucket_cursor id
    (Reachable.insert_step _ 0 7 true _ Reachable.default_ctor insert_defaultTable_eval)).1

/-- C9: on every reachable table, the full `begin()`-to-`end()` traversal by
repeated increments yields exactly the stored entries — the concatenation
of all chains in bucket order — and therefore visits exactly `size()`
entries, each one exactly once. -/
theorem c9_traversal {s : HashTable K V} (hs : Reachable hashF s) :
    traversalList s = s.buckets.flatten ∧ (traversalList s).length = size s :=
  traversalList_spec (reachable_inv hashF hs).1

theorem c9_traversal_witness :
    traversalList
        ({ buckets := [[(0, 7)], [], [], [], []], firstBucketIt := 0, tableSize := 1,
           maxLoadFactor := 1/2 } : HashTable Nat Nat)
      = ({ buckets := [[(0, 7)], [], [], [], []], firstBucketIt := 0, tableSize := 1,
           maxLoadFactor := 1/2 } : HashTable Nat Nat).buckets.flatten :=
  (c9_traversal id
    (Reachable.insert_step _ 0 7 true _ Reachable.default_ctor insert_defaultTable_eval)).1

/-- C10: `find(key)` and `contains(key)` are observationally pure: on any
table with at least one bucket they succeed, return the table in exactly
the state they received it (same entries, size, bucket count, load factor,
maximum load factor and first-occupied cursor), and calling them again
yields the same result. -/
theorem c10_find_pure {s : HashTable K V} (k : K) (hB : 0 < bucketSize s) :
    (∃ it : Iterator, findS hashF s k = .ok (it, s)) ∧
    (∃ b : Bool, containsS hashF s k = .ok (b, s)) ∧
    (∀ (it1 : Iterator) (s1 : HashTable K V), findS hashF s k = .ok (it1, s1) →
      s1.buckets = s.buckets ∧ size s1 = size s ∧ bucketSize s1 = bucketSize s ∧
      loadFactor s1 = loadFactor s ∧ getMaxLoadFactor s1 = getMaxLoadFactor s ∧
      s1.firstBucketIt = s.firstBucketIt ∧
      findS hashF s1 k = findS hashF s k ∧ containsS hashF s1 k = containsS hashF s k) := by
  obtain ⟨it, hit⟩ := findS_isOk_of_pos hashF k hB
  refine ⟨⟨it, hit⟩, ?_, ?_⟩
  · refine ⟨iterNe it (endIter s), ?_⟩
    unfold containsS
    rw [hit]
  · intro it1 s1 h1
    have := findS_state hashF h1
    subst this
    exact ⟨rfl, rfl, rfl, rfl, rfl, rfl, rfl, rfl⟩

theorem c10_find_pure_witness :
    ∃ it : Iterator, findS (K := Nat) (V := Nat) id defaultTable 0
      = .ok (it, defaultTable) :=
  (c10_find_pure id 0 (by rw [defaultTable_eval]; norm_num [bucketSize])).1

/-- C7: inserting a value for a key that is already present returns
"already present" (`false`), leaves the size and bucket count unchanged,
keeps every stored key exactly where it was (no structural change, no
rehash: only the one value cell is overwritten in place), and a subsequent
access of that key reads the new value. -/
theorem c7_insert_existing {s : HashTable K V} {k : K} {it : Iterator} (v2 : V)
    (hfind : findS hashF s k = .ok (it, s)) (hend : it.endFlag = false) :
    ∃ s2 : HashTable K V,
      insert hashF s k v2 = .ok (false, s2) ∧
      size s2 = size s ∧
      bucketSize s2 = bucketSize s ∧
      s2.buckets.map (List.map Prod.fst) = s.buckets.map (List.map Prod.fst) ∧
      getMaxLoadFactor s2 = getMaxLoadFactor s ∧
      opIndex hashF s2 k = .ok (v2, s2) := by
  obtain ⟨-, hbidx, hblt, chain, hchain, hcfi⟩ := findS_found hashF hfind hend
  obtain ⟨e, hget, hek, -⟩ := chainFindIdx_spec hcfi
  have hposlt : it.pos < chain.length := chainFindIdx_lt_length hcfi
  have hupd : updateValueAt s.buckets it.bucketIdx it.pos v2
      = s.buckets.set it.bucketIdx (chain.set it.pos (e.1, v2)) := by
    unfold updateValueAt
    simp only [hchain, hget]
  refine ⟨{ s with buckets := s.buckets.set it.bucketIdx (chain.set it.pos (e.1, v2)) },
    ?_, rfl, ?_, ?_, rfl, ?_⟩
  · show insertFuel hashF FUEL s k v2 = _
    unfold insertFuel
    rw [hfind]
    show insertItFuel hashF FUEL s it k v2 = _
    unfold insertItFuel
    rw [if_neg (by simp [hend]), hupd]
  · show (s.buckets.set it.bucketIdx (chain.set it.pos (e.1, v2))).length = s.buckets.length
    simp
  · show (s.buckets.set it.bucketIdx (chain.set it.pos (e.1, v2))).map (List.map Prod.fst)
        = s.buckets.map (List.map Prod.fst)
    rw [List.map_set]
    have h1 : (chain.set it.pos (e.1, v2)).map Prod.fst = chain.map Prod.fst := by
      rw [List.map_set]
      apply set_self_of_getElem?
      rw [List.getElem?_map, hget]
      rfl
    rw [h1]
    apply set_self_of_getElem?
    rw [List.getElem?_map, hchain]
    rfl
  · have hlen2 : (s.buckets.set it.bucketIdx (chain.set it.pos (e.1, v2))).length
        = s.buckets.length := by simp
    have hidx2 : hashF k
        % ({ s with buckets := s.buckets.set it.bucketIdx (chain.set it.pos (e.1, v2)) } :
            HashTable K V).buckets.length = it.bucketIdx := by
      show hashF k % (s.buckets.set it.bucketIdx (chain.set it.pos (e.1, v2))).length = _
      rw [hlen2, ← hbidx]
    have hget2 : (s.buckets.set it.bucketIdx (chain.set it.pos (e.1, v2)))[it.bucketIdx]?
        = some (chain.set it.pos (e.1, v2)) := List.getElem?_set_self hblt
    have hcfi2 : chainFindIdx k (chain.set it.pos (e.1, v2)) = some it.pos :=
      chainFindIdx_set_value v2 hcfi hget
    have hne2 : it.bucketIdx
        ≠ (s.buckets.set it.bucketIdx (chain.set it.pos (e.1, v2))).length := by
      rw [hlen2]
      omega
    have hfind2 : findS hashF
        { s with buckets := s.buckets.set it.bucketIdx (chain.set it.pos (e.1, v2)) } k
        = .ok ({ bucketIdx := it.bucketIdx, pos := it.pos, endFlag := false },
               { s with buckets := s.buckets.set it.bucketIdx (chain.set it.pos (e.1, v2)) }) := by
      unfold findS
      rw [hidx2]
      simp only [hget2, hcfi2, decide_eq_false hne2]
    have hder : derefEntry
        { s with buckets := s.buckets.set it.bucketIdx (chain.set it.pos (e.1, v2)) }
        { bucketIdx := it.bucketIdx, pos := it.pos, endFlag := false }
        = some (e.1, v2) := by
      unfold derefEntry
      show ((s.buckets.set it.bucketIdx (chain.set it.pos (e.1, v2))).getD it.bucketIdx [])[it.pos]? = _
      rw [getD_of_getElem? [] hget2]
      exact List.getElem?_set_self (by simpa using hposlt)
    unfold opIndex
    rw [hfind2]
    show (if ({ bucketIdx := it.bucketIdx, pos := it.pos, endFlag := false } : Iterator).endFlag
          then _ else _) = _
    rw [if_neg (by simp), hder]

theorem c7_insert_existing_witness :
    ∃ s2 : HashTable Nat Nat,
      insert id
          { buckets := [[(0, 7)], [], [], [], []], firstBucketIt := 0, tableSize := 1,
            maxLoadFactor := 1/2 } 0 9 = .ok (false, s2) ∧
      size s2
        = size ({ buckets := [[(0, 7)], [], [], [], []], firstBucketIt := 0, tableSize := 1,
                  maxLoadFactor := 1/2 } : HashTable Nat Nat) ∧
      bucketSize s2
        = bucketSize ({ buckets := [[(0, 7)], [], [], [], []], firstBucketIt := 0,
                        tableSize := 1, maxLoadFactor := 1/2 } : HashTable Nat Nat) ∧
      s2.buckets.map (List.map Prod.fst)
        = ({ buckets := [[(0, 7)], [], [], [], []], firstBucketIt := 0, tableSize := 1,
             maxLoadFactor := 1/2 } : HashTable Nat Nat).buckets.map (List.map Prod.fst) ∧
      getMaxLoadFactor s2
        = getMaxLoadFactor ({ buckets := [[(0, 7)], [], [], [], []], firstBucketIt := 0,
                              tableSize := 1, maxLoadFactor := 1/2 } : HashTable Nat Nat) ∧
      opIndex id s2 0 = .ok (9, s2) :=
  c7_insert_existing id 9 findS_oneEntry_eval rfl

/-- Amended C8: `setMaxLoadFactor(f)` throws `std::range_error` — the same
exception type as the out-of-range sizing error, distinguished only by its
message — when `f ≤ 1e-9`; otherwise it stores the new threshold and
immediately calls `rehash` at the current bucket count (which may itself
throw the out-of-range `std::range_error`), and on success the stored
maximum load factor is the new one. -/
theorem c8_setMaxLoadFactor_spec (s : HashTable K V) (f : ℚ) :
    (f ≤ 1 / 1000000000 →
      setMaxLoadFactor hashF s f = .error ⟨.rangeError, "invalid load factor!"⟩) ∧
    (1 / 1000000000 < f →
      setMaxLoadFactor hashF s f
        = rehash hashF { s with maxLoadFactor := f } s.buckets.length ∧
      ∀ s2 : HashTable K V, setMaxLoadFactor hashF s f = .ok s2 →
        s2.maxLoadFactor = f) := by
  constructor
  · intro hle
    unfold setMaxLoadFactor
    rw [if_pos hle]
  · intro hgt
    have hnle : ¬ f ≤ 1 / 1000000000 := not_le.mpr hgt
    constructor
    · unfold setMaxLoadFactor
      rw [if_neg hnle]
    · intro s2 h2
      unfold setMaxLoadFactor at h2
      rw [if_neg hnle] at h2
      have := (mlf_fuel hashF FUEL).1 _ _ _ h2
      rw [this]

theorem c8_setMaxLoadFactor_spec_witness :
    (1 : ℚ) / 1000000000 < 1 ∧
    setMaxLoadFactor (K := Nat) (V := Nat) id defaultTable 1
      = rehash id { defaultTable with maxLoadFactor := (1 : ℚ) }
          (defaultTable : HashTable Nat Nat).buckets.length :=
  ⟨by norm_num,
    ((c8_setMaxLoadFactor_spec id defaultTable 1).2 (by norm_num)).1⟩

theorem rehashFuel_succ_err (fuel : Nat) (s : HashTable K V) (b : Nat) (e : Exc)
    (h : findMinimumBucketSize s b = .error e) :
    rehashFuel hashF (fuel + 1) s b = .error e := by
  unfold rehashFuel
  rw [h]

theorem fmbs_exhausted_eval :
    findMinimumBucketSize
        ({ buckets := [[(0, 0)], [], [], [], []], firstBucketIt := 0, tableSize := 1,
           maxLoadFactor := 1/100000000 } : HashTable Nat Nat) 5
      = .error ⟨.rangeError, "Out of range."⟩ := by
  have hload : loadGEmax
      ({ buckets := [[(0, 0)], [], [], [], []], firstBucketIt := 0, tableSize := 1,
         maxLoadFactor := 1/100000000 } : HashTable Nat Nat) = true := by
    norm_num [loadGEmax]
  have hceil2 : (Nat.ceil (100000000 : ℚ)) = 100000000 := by norm_num
  have hlb : HashPrime.lowerBound 100000000 HashPrime.g_a_sizes = none := by decide
  unfold findMinimumBucketSize
  rw [if_pos hload]
  norm_num [hceil2, hlb]

/-- Counterexample to C8: the claim asserts the too-small-factor failure is
an invalid-argument error, an error kind distinct from the out-of-range
sizing error.  In the code both sites throw `std::range_error`: the
exception thrown at the `1e-9` bound has the very same dynamic type as the
out-of-range error from `findMinimumBucketSize` (only the messages differ),
and `setMaxLoadFactor` can moreover throw that out-of-range error for
factors above `1e-9` (here `1e-8` on a one-entry table). -/
theorem c8_errorKind_counterexample :
    setMaxLoadFactor (K := Nat) (V := Nat) id
        { buckets := [[(0, 0)], [], [], [], []], firstBucketIt := 0, tableSize := 1,
          maxLoadFactor := 1/2 } ((1 : ℚ)/1000000000)
      = .error ⟨.rangeError, "invalid load factor!"⟩ ∧
    setMaxLoadFactor (K := Nat) (V := Nat) id
        { buckets := [[(0, 0)], [], [], [], []], firstBucketIt := 0, tableSize := 1,
          maxLoadFactor := 1/2 } ((1 : ℚ)/100000000)
      = .error ⟨.rangeError, "Out of range."⟩ ∧
    (Exc.mk .rangeError "invalid load factor!").kind
      = (Exc.mk .rangeError "Out of range.").kind ∧
    (Exc.mk .rangeError "invalid load factor!").kind ≠ ExcKind.invalidArgument := by
  refine ⟨?_, ?_, rfl, by decide⟩
  · unfold setMaxLoadFactor
    rw [if_pos (by norm_num)]
  · unfold setMaxLoadFactor
    rw [if_neg (by norm_num)]
    show rehashFuel id (99 + 1)
        ({ buckets := [[(0, 0)], [], [], [], []], firstBucketIt := 0, tableSize := 1,
           maxLoadFactor := 1/100000000 } : HashTable Nat Nat) 5 = _
    exact rehashFuel_succ_err id 99 _ 5 _ fmbs_exhausted_eval

end HashTable
